import Mathlib

/-!
A shallow embedding of the kademlia k-bucket routing table implemented in
`src/table.go` of this repository, together with theorems settling the
specification claims.

Modelling conventions:
* `peer.ID` is abstracted to `Nat`; the hash `ConvertPeerID : peer.ID → ID`
  is a function field `toKey` of the table (the hashing code is outside this
  repository's `src/`).
* keys (`ID` in the source) are big-endian bit strings, bit 0 most significant;
  XOR distance compares the xored bit strings lexicographically, which for
  equal widths agrees with comparing big-endian unsigned integers.
* timestamps and durations are integer nanosecond counts; the Go zero `Time`
  is the integer `0`, so a "now" is a huge positive number (about `6.4e19` ns
  separate the zero time from the present).  Go's `Time.Sub` saturates at
  `math.MaxInt64` / `math.MinInt64` nanoseconds, which `durSub` reproduces.
* the `float64(...)` conversion applied to a duration in the eviction sweep is
  modelled exactly by `float64Int` (round to nearest, ties to even, 53-bit
  mantissa — exact on every value an int64 duration can take).
* the callbacks `PeerAdded` / `PeerRemoved` are modelled as an emitted event
  list.
* the mutating methods return the new table; `TryAddPeer` wraps `addPeer`
  with locking only, so the embedding models `addPeer` and calls it the
  admission operation.
-/

namespace KBucket

/-- Keys (the `ID` type of the source): fixed-width big-endian bit strings,
bit 0 the most significant.  Modelled from the spec: util.go (the `ID` type
and `ConvertPeerID`) is not under src/. -/
abbrev Key := List Bool

/-- Peer identifiers (`peer.ID` in the source), abstracted to naturals. -/
abbrev PeerId := Nat

/-- Number of leading bits equal between two keys.  Modelled from the spec:
`CommonPrefixLen(a, b)` is "the number of leading bits equal between a and b",
util.go is not under src/. -/
def CommonPrefixLen : Key → Key → Nat
  | a :: as, b :: bs => if a = b then CommonPrefixLen as bs + 1 else 0
  | _, _ => 0

/-- Bitwise XOR of two keys.  Modelled from the spec: distance is bitwise XOR,
util.go is not under src/. -/
def xorKey (a b : Key) : Key := List.zipWith bne a b

/-- Strict big-endian lexicographic order on keys; for equal widths this is
exactly comparison of the big-endian unsigned integers the keys denote.
Modelled from the spec: "distance is bitwise XOR interpreted as a big-endian
unsigned integer; smaller = closer" (the comparator of the distance sorter is
not under src/). -/
def keyLt : Key → Key → Bool
  | [], [] => false
  | [], _ :: _ => true
  | _ :: _, [] => false
  | a :: as, b :: bs => if a = b then keyLt as bs else (!a && b)

/-- Total comparator used for sorting by distance: `a` is at most `b`. -/
def keyLe (a b : Key) : Bool := ! keyLt b a

/-- Value of the IEEE-754 binary64 number nearest to `n` (round to nearest,
ties to even); exact for `n < 2^53`.  This is the value Go's `float64(d)`
conversion produces for a non-negative `int64` `d`. -/
def float64Nat (n : Nat) : Nat :=
  if n < 2 ^ 53 then n
  else
    let e := n.log2 - 52
    let q := n / 2 ^ e
    let r := n % 2 ^ e
    if 2 * r > 2 ^ e ∨ (2 * r = 2 ^ e ∧ q % 2 = 1) then (q + 1) * 2 ^ e else q * 2 ^ e

/-- Value of Go's `float64(x)` conversion of an `int64` nanosecond count. -/
def float64Int (x : Int) : Int :=
  if x ≥ 0 then (float64Nat x.toNat : Int) else -(float64Nat (-x).toNat : Int)

/-- Largest `time.Duration` (`math.MaxInt64` nanoseconds, `2^63 - 1`). -/
def maxDuration : Int := 9223372036854775807

/-- Smallest `time.Duration` (`math.MinInt64` nanoseconds, `-2^63`). -/
def minDuration : Int := -9223372036854775808

/-- Go's `Time.Sub` (hence `time.Since`): the difference of two times,
saturated to the `int64` range of `time.Duration`. -/
def durSub (now t : Int) : Int := max (min (now - t) maxDuration) minDuration

/-- The stored record of one peer (`peerInfo` in table.go): id, the
`lastSuccessfulOutboundQuery` timestamp (`0`, the zero time, when unset) and
the cached key `dhtId = ConvertPeerID(Id)`. -/
structure peerInfo where
  Id : PeerId
  lastSuccessfulOutboundQuery : Int
  dhtId : Key
  deriving DecidableEq, Repr

/-- A bucket: ordered sequence of records, head = front (most recent). -/
abbrev Bucket := List peerInfo

/-- Lookup by id.  Modelled from the spec: `getPeer(id) → PeerRecord | none`,
bucket.go is not under src/. -/
def Bucket.getPeer (b : Bucket) (p : PeerId) : Option peerInfo :=
  b.find? (fun x => x.Id == p)

/-- Prepend a record.  Modelled from the spec: `pushFront(record)` prepends,
bucket.go is not under src/. -/
def Bucket.pushFront (b : Bucket) (x : peerInfo) : Bucket := x :: b

/-- Remove the record with the given id, reporting whether one was removed.
Modelled from the spec: `remove(id) → bool`, bucket.go is not under src/. -/
def Bucket.removeId : Bucket → PeerId → Bool × Bucket
  | [], _ => (false, [])
  | x :: xs, p =>
    if x.Id = p then (true, xs)
    else
      let (r, ys) := Bucket.removeId xs p
      (r, x :: ys)

/-- Ids of the records of a bucket, front first (`peerIds()`). -/
def Bucket.ids (b : Bucket) : List PeerId := b.map peerInfo.Id

/-- Update the timestamp of the record with the given id (the source obtains a
mutable handle from `getPeer` and assigns through it). -/
def Bucket.setLastQ : Bucket → PeerId → Int → Bucket
  | [], _, _ => []
  | x :: xs, p, t =>
    if x.Id = p then { x with lastSuccessfulOutboundQuery := t } :: xs
    else x :: Bucket.setLastQ xs p t

/-- The routing table state together with its configuration and the external
oracles (latency metrics and the peer-id hash), which the source reaches
through `rt.metrics` and the package-level `ConvertPeerID`. -/
structure RoutingTable where
  /-- key of the local peer (`rt.local`). -/
  localKey : Key
  /-- the ordered buckets, `B[0] … B[m-1]`. -/
  buckets : List Bucket
  /-- uniform bucket capacity (`rt.bucketsize`, a Go `int`). -/
  bucketsize : Int
  /-- admission latency cutoff in nanoseconds (`rt.maxLatency`). -/
  maxLatency : Int
  /-- the latency oracle `rt.metrics.LatencyEWMA`, nanoseconds. -/
  latencyEWMA : PeerId → Int
  /-- staleness cutoff, a `float64` nanosecond count; modelled as an exact
  rational (every finite `float64` is a rational). -/
  maxLastSuccessfulOutboundThreshold : ℚ
  /-- the deterministic hash `ConvertPeerID`.  Modelled from the spec:
  `toKey(PeerId) → K`, util.go is not under src/. -/
  toKey : PeerId → Key
  /-- refresh interval of the liveness loop, nanoseconds. -/
  rtRefreshInterval : Int

/-- Callback events (`rt.PeerAdded` / `rt.PeerRemoved` invocations). -/
inductive Event where
  | added (p : PeerId)
  | removed (p : PeerId)
  deriving DecidableEq, Repr

/-- The two admission errors of table.go. -/
inductive AddErr where
  | highLatency
  | noCapacity
  deriving DecidableEq, Repr

namespace RoutingTable

/-- Replace bucket `i`. -/
def setBucket (rt : RoutingTable) (i : Nat) (b : Bucket) : RoutingTable :=
  { rt with buckets := rt.buckets.set i b }

/-- Index of the bucket a peer belongs to (`bucketIdForPeer`): the common
prefix length with the local key, capped at the last bucket. -/
def bucketIdForPeer (rt : RoutingTable) (p : PeerId) : Nat :=
  let cpl := CommonPrefixLen (rt.toKey p) rt.localKey
  if cpl ≥ rt.buckets.length then rt.buckets.length - 1 else cpl

/-- One unfolding step of `nextBucket`: split the last bucket at depth
`m - 1` and append the new bucket.  The split partitions the records by
whether their common prefix length with the local key exceeds the depth;
the farther records (cpl = depth) stay, the closer records (cpl > depth) form
the appended bucket, each side keeping its order.  Modelled from the spec
where bucket.go's `split` is concerned: `split(depth, local)` "partitions a
bucket's records into those that do and do not share at least depth+1 bits
with local", appending the new bucket at the end; the direction is fixed by
the assignment invariant the spec states and by the comments of
table.go/NearestPeers (bucket `i` holds peers sharing `i` bits with the local
key), which require the appended last bucket to hold the closer records. -/
def splitLast (rt : RoutingTable) : RoutingTable :=
  let d := rt.buckets.length - 1
  let b := rt.buckets.getLastD []
  let kept := b.filter (fun x => ¬ CommonPrefixLen x.dhtId rt.localKey > d)
  let moved := b.filter (fun x => CommonPrefixLen x.dhtId rt.localKey > d)
  { rt with buckets := rt.buckets.dropLast ++ [kept, moved] }

/-- The recursive unfold cascade `nextBucket`, with explicit fuel: keep
splitting while the newly formed last bucket has at least `bucketsize`
records.  `none` means the fuel was exhausted, i.e. the Go recursion would
still be running (it diverges when `bucketsize ≤ 0`). -/
def nextBucketF : Nat → RoutingTable → Option RoutingTable
  | 0, _ => none
  | fuel + 1, rt =>
    let rt2 := rt.splitLast
    if ((rt2.buckets.getLastD []).length : Int) ≥ rt2.bucketsize then
      nextBucketF fuel rt2
    else some rt2

/-- Fuel that suffices for `nextBucketF` whenever `bucketsize ≥ 1` (proved
below): one split per possible depth up to the key width, plus slack. -/
def nextBucketFuel (rt : RoutingTable) : Nat := rt.localKey.length + 2

/-- The staleness test of the eviction sweep at time `now` (table.go line
220): the age of the record's last successful outbound query, converted to
`float64` nanoseconds, exceeds the configured threshold. -/
def isStale (rt : RoutingTable) (now : Int) (x : peerInfo) : Bool :=
  decide ((float64Int (durSub now x.lastSuccessfulOutboundQuery) : ℚ) >
    rt.maxLastSuccessfulOutboundThreshold)

/-- The eviction sweep at the end of `addPeer` (table.go lines 216-230): walk
the snapshot of the full bucket front to back; at the first record whose age
`float64(time.Since(lastSuccessfulOutboundQuery))` exceeds the threshold and
whose removal succeeds, remove it, push the new record at the front and
report admission; if none qualifies, reject with `ErrPeerRejectedNoCapacity`.
Note the source removes via `bucket.remove`, not `rt.removePeer`, so no
`PeerRemoved` event is emitted for the evicted record. -/
def sweep (rt : RoutingTable) (bucketID : Nat) (bkt : Bucket) (newRec : peerInfo)
    (now : Int) : List peerInfo → RoutingTable × Bool × Option AddErr × List Event
  | [] => (rt, false, some AddErr.noCapacity, [])
  | pc :: rest =>
    if rt.isStale now pc then
      match Bucket.removeId bkt pc.Id with
      | (true, b2) =>
        (rt.setBucket bucketID (Bucket.pushFront b2 newRec), true, none, [Event.added newRec.Id])
      | (false, _) => rt.sweep bucketID bkt newRec now rest
    else rt.sweep bucketID bkt newRec now rest

/-- The admission operation `addPeer` (the body of `TryAddPeer`), table.go
lines 175-231.  `now` is the current time; the new record's timestamp is
`now` for a query peer and the zero time otherwise.  The result is the new
table, the added flag, the error, and the emitted callback events; `none`
stands for the divergence of the unfold cascade (possible only when
`bucketsize ≤ 0`). -/
def addPeer (rt : RoutingTable) (p : PeerId) (queryPeer : Bool) (now : Int) :
    Option (RoutingTable × Bool × Option AddErr × List Event) :=
  let bucketID := rt.bucketIdForPeer p
  let bkt := rt.buckets.getD bucketID []
  let lastQ : Int := if queryPeer then now else 0
  let newRec : peerInfo := ⟨p, lastQ, rt.toKey p⟩
  if (Bucket.getPeer bkt p).isSome then
    some (rt, false, none, [])
  else if rt.latencyEWMA p > rt.maxLatency then
    some (rt, false, some AddErr.highLatency, [])
  else if (bkt.length : Int) < rt.bucketsize then
    some (rt.setBucket bucketID (Bucket.pushFront bkt newRec), true, none, [Event.added p])
  else if bucketID = rt.buckets.length - 1 then
    match rt.nextBucketF rt.nextBucketFuel with
    | none => none
    | some rt2 =>
      let bucketID2 := rt2.bucketIdForPeer p
      let bkt2 := rt2.buckets.getD bucketID2 []
      if (bkt2.length : Int) < rt2.bucketsize then
        some (rt2.setBucket bucketID2 (Bucket.pushFront bkt2 newRec), true, none, [Event.added p])
      else
        some (rt2.sweep bucketID2 bkt2 newRec now bkt2)
  else
    some (rt.sweep bucketID bkt newRec now bkt)

/-- The table and the bucket index on which the eviction sweep of `addPeer`
runs: when the peer's bucket is the last one the table is first unfolded and
the bucket re-resolved (table.go lines 201-206), otherwise both are
unchanged.  `none` stands for divergence of the unfold cascade. -/
def sweepTarget (rt : RoutingTable) (p : PeerId) : Option (RoutingTable × Nat) :=
  if rt.bucketIdForPeer p = rt.buckets.length - 1 then
    match rt.nextBucketF rt.nextBucketFuel with
    | none => none
    | some rt2 => some (rt2, rt2.bucketIdForPeer p)
  else some (rt, rt.bucketIdForPeer p)

/-- The removal operation `removePeer` (the body of `RemovePeer` and of the
liveness eviction): remove from the assigned bucket and emit a `removed`
event only when a record was present. -/
def removePeerOp (rt : RoutingTable) (p : PeerId) : RoutingTable × List Event :=
  let bucketID := rt.bucketIdForPeer p
  let bkt := rt.buckets.getD bucketID []
  match Bucket.removeId bkt p with
  | (true, b2) => (rt.setBucket bucketID b2, [Event.removed p])
  | (false, _) => (rt, [])

/-- The `UpdateLastSuccessfulOutboundQuery` operation. -/
def updateLastQ (rt : RoutingTable) (p : PeerId) (t : Int) : RoutingTable × Bool :=
  let bucketID := rt.bucketIdForPeer p
  let bkt := rt.buckets.getD bucketID []
  if (Bucket.getPeer bkt p).isSome then
    (rt.setBucket bucketID (Bucket.setLastQ bkt p t), true)
  else (rt, false)

/-- Total number of stored records (`Size`). -/
def Size (rt : RoutingTable) : Nat := (rt.buckets.map List.length).sum

/-- All stored peer ids, bucket by bucket (`ListPeers`). -/
def ListPeers (rt : RoutingTable) : List PeerId :=
  (rt.buckets.map Bucket.ids).flatten

/-- Gathering loop of `NearestPeers`: append whole buckets while the
candidate count is still short of the request. -/
def gatherShort (count : Nat) : List Bucket → List peerInfo → List peerInfo
  | [], acc => acc
  | b :: rest, acc =>
    if acc.length < count then gatherShort count rest (acc ++ b) else acc

/-- Index of the bucket `NearestPeers` seeds its candidates from: the common
prefix length of the target with the local key, capped at the last bucket
(table.go lines 310-318). -/
def seedIdx (rt : RoutingTable) (t : Key) : Nat :=
  if CommonPrefixLen t rt.localKey ≥ rt.buckets.length then rt.buckets.length - 1
  else CommonPrefixLen t rt.localKey

/-- The candidate records `NearestPeers` accumulates before sorting: the whole
seed bucket (the target's bucket), then whole buckets to the right while
short, then whole buckets to the left while short. -/
def candidates (rt : RoutingTable) (t : Key) (count : Nat) : List peerInfo :=
  let cpl := rt.seedIdx t
  let seed := rt.buckets.getD cpl []
  let acc1 := gatherShort count (rt.buckets.drop (cpl + 1)) seed
  gatherShort count ((rt.buckets.take cpl).reverse) acc1

/-- Ascending XOR-distance comparison of two records relative to a target
key, the order the distance sorter sorts by. -/
abbrev distRel (t : Key) (a b : peerInfo) : Prop :=
  keyLe (xorKey a.dhtId t) (xorKey b.dhtId t) = true

/-- `NearestPeers(t, count)` (table.go lines 305-367): gather candidates,
sort them by XOR distance to the target ascending (the distance sorter is
modelled from the spec: "produce records sorted by XOR distance", sorting.go
is not under src/; any sort satisfying that contract is equivalent, a stable
insertion sort here), truncate to `count`, return the ids. -/
def NearestPeers (rt : RoutingTable) (t : Key) (count : Nat) : List PeerId :=
  ((List.insertionSort (distRel t) (rt.candidates t count)).take count).map
    peerInfo.Id

/-- `Find(id)` (table.go lines 285-291): the nearest peer to the id's own key,
filtered to an exact match; `none` models the empty id `""`. -/
def Find (rt : RoutingTable) (p : PeerId) : Option PeerId :=
  match rt.NearestPeers (rt.toKey p) 1 with
  | [] => none
  | x :: _ => if x = p then some x else none

/-- Handling of one snapshotted record in one tick of the background liveness
loop (table.go lines 120-137): if the record is due for a probe and the probe
failed, re-check connectedness under the exclusive lock and remove the peer
only when it is not connected.  `probeFails` and `connected` are the answers
of the external `peerPingFnc` and `peerConnectednessFnc` oracles at the two
decision points. -/
def backgroundCheckPeer (rt : RoutingTable) (ps : peerInfo) (now : Int)
    (probeFails : Bool) (connected : Bool) : RoutingTable × List Event :=
  if durSub now ps.lastSuccessfulOutboundQuery > rt.rtRefreshInterval / 3 then
    if probeFails then
      if ¬ connected then rt.removePeerOp ps.Id else (rt, [])
    else (rt, [])
  else (rt, [])

/-- Structural soundness of the stored records: every record caches the hash
of its id and every stored key, like the local key, has the full key width.
This is how `addPeer` creates records (`ConvertPeerID(p)` hashes to the fixed
width). -/
def KeysGood (rt : RoutingTable) : Prop :=
  ∀ b ∈ rt.buckets, ∀ x ∈ b,
    x.dhtId = rt.toKey x.Id ∧ x.dhtId.length = rt.localKey.length

/-- The bucket-assignment invariant of the spec: every record of bucket `i`
has `i = min(CommonPrefixLen(key, local), m-1)`. -/
def Assigned (rt : RoutingTable) : Prop :=
  ∀ i, i < rt.buckets.length → ∀ x ∈ rt.buckets.getD i [],
    i = min (CommonPrefixLen x.dhtId rt.localKey) (rt.buckets.length - 1)

end RoutingTable

/-- The initial table of `NewRoutingTable`: one empty bucket. -/
def freshTable (localKey : Key) (bucketsize maxLatency : Int)
    (latencyEWMA : PeerId → Int) (threshold : ℚ) (toKey : PeerId → Key)
    (refresh : Int) : RoutingTable :=
  { localKey := localKey, buckets := [[]], bucketsize := bucketsize,
    maxLatency := maxLatency, latencyEWMA := latencyEWMA,
    maxLastSuccessfulOutboundThreshold := threshold, toKey := toKey,
    rtRefreshInterval := refresh }

/-- States reachable from a fresh table by the public mutating operations
(`TryAddPeer`, `RemovePeer` — which is also the liveness eviction —, and
`UpdateLastSuccessfulOutboundQuery`). -/
inductive Reachable : RoutingTable → Prop where
  | init (localKey : Key) (bucketsize maxLatency : Int)
      (latencyEWMA : PeerId → Int) (threshold : ℚ) (toKey : PeerId → Key)
      (refresh : Int) :
      Reachable (freshTable localKey bucketsize maxLatency latencyEWMA threshold toKey refresh)
  | add (rt rt' : RoutingTable) (p : PeerId) (q : Bool) (now : Int)
      (added : Bool) (err : Option AddErr) (evs : List Event)
      (hr : Reachable rt) (h : rt.addPeer p q now = some (rt', added, err, evs)) :
      Reachable rt'
  | remove (rt : RoutingTable) (p : PeerId) (hr : Reachable rt) :
      Reachable (rt.removePeerOp p).1
  | update (rt : RoutingTable) (p : PeerId) (t : Int) (hr : Reachable rt) :
      Reachable (rt.updateLastQ p t).1

/-!  Concrete fixtures with 4-bit keys, used by the witnesses and the
counterexamples.  The local peer is id `0` with key `0000`. -/

/-- A concrete 4-bit peer-id hash: id 0 (the local peer) maps to `0000`,
id 1 to `0111` (cpl 1 with the local key), id 2 to `0010` (cpl 2),
id 3 to `1000` (cpl 0), everything else to `1111` (cpl 0). -/
def tk4 : PeerId → Key
  | 0 => [false, false, false, false]
  | 1 => [false, true, true, true]
  | 2 => [false, false, true, false]
  | 3 => [true, false, false, false]
  | _ => [true, true, true, true]

/-- Record for peer `n` with the given timestamp under the `tk4` hash. -/
def rec4 (n : PeerId) (lastQ : Int) : peerInfo := ⟨n, lastQ, tk4 n⟩

/-- An injective peer-id hash for the witnesses that need injectivity: id `n`
maps to `n` leading `false` bits followed by one `true` bit. -/
def tkI (n : PeerId) : Key := List.replicate n false ++ [true]

/-- A concrete table under the `tk4` hash: given buckets, capacity and
staleness threshold; latency oracle constantly 0 against a cutoff of 100. -/
def mkT (bs : List Bucket) (k : Int) (thr : ℚ) : RoutingTable :=
  { localKey := tk4 0, buckets := bs, bucketsize := k, maxLatency := 100,
    latencyEWMA := fun _ => 0, maxLastSuccessfulOutboundThreshold := thr,
    toKey := tk4, rtRefreshInterval := 30 }

/-- A one-record table under the injective `tkI` hash: the local key is
`tkI 3` and the single stored record is peer 3 itself. -/
def mkTI : RoutingTable :=
  { localKey := tkI 3, buckets := [[⟨3, 0, tkI 3⟩]], bucketsize := 1,
    maxLatency := 100, latencyEWMA := fun _ => 0,
    maxLastSuccessfulOutboundThreshold := 10, toKey := tkI,
    rtRefreshInterval := 30 }

end KBucket

/-!  Helper lemmas: the key order, common prefix lengths and distances. -/

namespace KBucket

theorem cpl_le_left (a b : Key) : CommonPrefixLen a b ≤ a.length := by
  induction a generalizing b with
  | nil => cases b <;> simp [CommonPrefixLen]
  | cons x xs ih =>
    cases b with
    | nil => simp [CommonPrefixLen]
    | cons y ys =>
      by_cases h : x = y <;> simp [CommonPrefixLen, h]
      exact ih ys

theorem cpl_le_right (a b : Key) : CommonPrefixLen a b ≤ b.length := by
  induction a generalizing b with
  | nil => cases b <;> simp [CommonPrefixLen]
  | cons x xs ih =>
    cases b with
    | nil => simp [CommonPrefixLen]
    | cons y ys =>
      by_cases h : x = y <;> simp [CommonPrefixLen, h]
      exact ih ys

theorem keyLt_irrefl (a : Key) : keyLt a a = false := by
  induction a with
  | nil => rfl
  | cons x xs ih => simp [keyLt, ih]

theorem keyLt_asymm {a b : Key} (h : keyLt a b = true) : keyLt b a = false := by
  induction a generalizing b with
  | nil =>
    cases b with
    | nil => simp [keyLt] at h
    | cons y ys => simp [keyLt]
  | cons x xs ih =>
    cases b with
    | nil => simp [keyLt] at h
    | cons y ys =>
      by_cases hxy : x = y
      · subst hxy
        simp only [keyLt, if_pos rfl] at h ⊢
        exact ih h
      · have hyx : y ≠ x := fun hh => hxy hh.symm
        simp only [keyLt, if_neg hxy] at h
        simp only [keyLt, if_neg hyx]
        cases x <;> cases y <;> simp_all

theorem keyLt_trans {a b c : Key} (hab : keyLt a b = true) (hbc : keyLt b c = true) :
    keyLt a c = true := by
  induction a generalizing b c with
  | nil =>
    cases b with
    | nil => simp [keyLt] at hab
    | cons y ys =>
      cases c with
      | nil => simp [keyLt] at hbc
      | cons z zs => simp [keyLt]
  | cons x xs ih =>
    cases b with
    | nil => simp [keyLt] at hab
    | cons y ys =>
      cases c with
      | nil => simp [keyLt] at hbc
      | cons z zs =>
        by_cases hxy : x = y <;> by_cases hyz : y = z
        · subst hxy; subst hyz
          simp only [keyLt, if_pos rfl] at hab hbc ⊢
          exact ih hab hbc
        · subst hxy
          simp only [keyLt, if_neg hyz] at hbc ⊢
          exact hbc
        · subst hyz
          simp only [keyLt, if_neg hxy] at hab
          simp only [keyLt, if_neg hxy]
          exact hab
        · simp only [keyLt, if_neg hxy] at hab
          simp only [keyLt, if_neg hyz] at hbc
          cases x <;> cases y <;> cases z <;> simp_all [keyLt]

theorem keyLt_conn {a b : Key} (h : a ≠ b) : keyLt a b = true ∨ keyLt b a = true := by
  induction a generalizing b with
  | nil =>
    cases b with
    | nil => exact absurd rfl h
    | cons y ys => left; simp [keyLt]
  | cons x xs ih =>
    cases b with
    | nil => right; simp [keyLt]
    | cons y ys =>
      by_cases hxy : x = y
      · subst hxy
        have hne : xs ≠ ys := by intro hh; exact h (by rw [hh])
        rcases ih hne with h1 | h1
        · left; simpa [keyLt] using h1
        · right; simpa [keyLt] using h1
      · have hyx : y ≠ x := fun hh => hxy hh.symm
        cases x <;> cases y <;> simp_all [keyLt]

theorem keyLe_refl (a : Key) : keyLe a a = true := by
  simp [keyLe, keyLt_irrefl]

theorem keyLe_total (a b : Key) : (keyLe a b || keyLe b a) = true := by
  by_cases h : keyLt b a = true
  · have := keyLt_asymm h
    simp [keyLe, this]
  · simp [keyLe, Bool.not_eq_true] at h ⊢
    simp [h]

theorem keyLe_trans {a b c : Key} (hab : keyLe a b = true) (hbc : keyLe b c = true) :
    keyLe a c = true := by
  simp only [keyLe, Bool.not_eq_true'] at hab hbc ⊢
  by_contra hca
  simp only [Bool.not_eq_false] at hca
  by_cases hcb : c = b
  · subst hcb; rw [hca] at hab; cases hab
  · rcases keyLt_conn hcb with h1 | h1
    · rw [h1] at hbc; cases hbc
    · have := keyLt_trans h1 hca
      rw [this] at hab; cases hab

theorem keyLe_of_keyLt {a b : Key} (h : keyLt a b = true) : keyLe a b = true := by
  simp [keyLe, keyLt_asymm h]

end KBucket

namespace KBucket

theorem cpl_cons_eq (x : Bool) (as bs : Key) :
    CommonPrefixLen (x :: as) (x :: bs) = CommonPrefixLen as bs + 1 := by
  simp [CommonPrefixLen]

theorem cpl_cons_ne {x y : Bool} (h : x ≠ y) (as bs : Key) :
    CommonPrefixLen (x :: as) (y :: bs) = 0 := by
  simp [CommonPrefixLen, h]

theorem cpl_comm (a b : Key) : CommonPrefixLen a b = CommonPrefixLen b a := by
  induction a generalizing b with
  | nil => cases b <;> simp [CommonPrefixLen]
  | cons x xs ih =>
    cases b with
    | nil => simp [CommonPrefixLen]
    | cons y ys =>
      by_cases h : x = y
      · subst h; rw [cpl_cons_eq, cpl_cons_eq, ih ys]
      · rw [cpl_cons_ne h, cpl_cons_ne (fun hh => h hh.symm)]

theorem cpl_triangle (a b c : Key) :
    min (CommonPrefixLen a b) (CommonPrefixLen b c) ≤ CommonPrefixLen a c := by
  induction a generalizing b c with
  | nil => cases b <;> cases c <;> simp [CommonPrefixLen]
  | cons x xs ih =>
    cases b with
    | nil => simp [CommonPrefixLen]
    | cons y ys =>
      cases c with
      | nil => simp [CommonPrefixLen]
      | cons z zs =>
        by_cases hxy : x = y
        · by_cases hyz : y = z
          · subst hxy; subst hyz
            rw [cpl_cons_eq, cpl_cons_eq, cpl_cons_eq]
            have := ih ys zs
            omega
          · rw [cpl_cons_ne hyz]
            simp
        · rw [cpl_cons_ne hxy]
          simp

theorem cpl_eq_min_of_ne (a b c : Key)
    (h : CommonPrefixLen a b ≠ CommonPrefixLen b c) :
    CommonPrefixLen a c = min (CommonPrefixLen a b) (CommonPrefixLen b c) := by
  induction a generalizing b c with
  | nil =>
    cases b with
    | nil => simp [CommonPrefixLen] at h
    | cons y ys => cases c <;> simp [CommonPrefixLen]
  | cons x xs ih =>
    cases b with
    | nil => simp [CommonPrefixLen] at h
    | cons y ys =>
      cases c with
      | nil => simp [CommonPrefixLen]
      | cons z zs =>
        by_cases hxy : x = y
        · by_cases hyz : y = z
          · subst hxy; subst hyz
            rw [cpl_cons_eq, cpl_cons_eq] at h ⊢
            rw [cpl_cons_eq]
            have hne : CommonPrefixLen xs ys ≠ CommonPrefixLen ys zs := by omega
            have := ih ys zs hne
            omega
          · have hxz : x ≠ z := by rw [hxy]; exact hyz
            rw [cpl_cons_ne hxz, cpl_cons_ne hyz]
            simp
        · by_cases hyz : y = z
          · have hxz : x ≠ z := by rw [← hyz]; exact hxy
            rw [cpl_cons_ne hxz, cpl_cons_ne hxy]
            simp
          · rw [cpl_cons_ne hxy, cpl_cons_ne hyz] at h
            exact absurd rfl h

theorem cpl_succ_of_both {n : Nat} {a t l : Key}
    (ha : CommonPrefixLen a l = n) (ht : CommonPrefixLen t l = n)
    (hna : n < a.length) (hnt : n < t.length) (hnl : n < l.length) :
    n + 1 ≤ CommonPrefixLen a t := by
  induction n generalizing a t l with
  | zero =>
    cases l with
    | nil => simp at hnl
    | cons w ls =>
      cases a with
      | nil => simp at hna
      | cons x xs =>
        cases t with
        | nil => simp at hnt
        | cons y ts =>
          by_cases hxw : x = w
          · subst hxw; rw [cpl_cons_eq] at ha; omega
          · by_cases hyw : y = w
            · subst hyw; rw [cpl_cons_eq] at ht; omega
            · have hxy : x = y := by
                cases x <;> cases y <;> cases w <;> simp_all
              subst hxy
              rw [cpl_cons_eq]
              omega
  | succ n ih =>
    cases l with
    | nil => simp at hnl
    | cons w ls =>
      cases a with
      | nil => simp at hna
      | cons x xs =>
        cases t with
        | nil => simp at hnt
        | cons y ts =>
          by_cases hxw : x = w
          · by_cases hyw : y = w
            · subst hxw; subst hyw
              rw [cpl_cons_eq] at ha ht
              have hrec := ih (a := xs) (t := ts) (l := ls) (by omega) (by omega)
                (by simpa using hna) (by simpa using hnt) (by simpa using hnl)
              rw [cpl_cons_eq]
              omega
            · rw [cpl_cons_ne hyw] at ht; omega
          · rw [cpl_cons_ne hxw] at ha; omega

theorem dist_lt {a b t : Key} (hat : a.length = t.length) (hbt : b.length = t.length)
    (h : CommonPrefixLen b t < CommonPrefixLen a t) :
    keyLt (xorKey a t) (xorKey b t) = true := by
  induction t generalizing a b with
  | nil =>
    rw [List.length_nil, List.length_eq_zero] at hat hbt
    subst hat; subst hbt; simp [CommonPrefixLen] at h
  | cons z ts ih =>
    cases a with
    | nil => simp at hat
    | cons x xs =>
      cases b with
      | nil => simp at hbt
      | cons y ys =>
        by_cases hxz : x = z
        · subst hxz
          by_cases hyz : y = x
          · subst hyz
            rw [cpl_cons_eq, cpl_cons_eq] at h
            have hrec := ih (by simpa using hat) (by simpa using hbt) (by omega)
            simp only [xorKey, List.zipWith_cons_cons, bne_self_eq_false]
            simpa [keyLt] using hrec
          · simp only [xorKey, List.zipWith_cons_cons]
            have h1 : (x != x) = false := by simp
            have h2 : (y != x) = true := by simp [hyz]
            rw [h1, h2]
            simp [keyLt]
        · rw [cpl_cons_ne hxz] at h
          omega

theorem xorKey_self (t : Key) : xorKey t t = List.replicate t.length false := by
  induction t with
  | nil => rfl
  | cons x xs ih =>
    simp only [xorKey, List.zipWith_cons_cons, bne_self_eq_false, List.length_cons,
      List.replicate]
    exact congrArg _ ih

theorem eq_of_xorKey_eq_zero {a b : Key} (hlen : a.length = b.length)
    (h : xorKey a b = List.replicate a.length false) : a = b := by
  induction a generalizing b with
  | nil =>
    rw [List.length_nil, Eq.comm, List.length_eq_zero] at hlen
    rw [hlen]
  | cons x xs ih =>
    cases b with
    | nil => simp at hlen
    | cons y ys =>
      simp only [xorKey, List.zipWith_cons_cons, List.length_cons, List.replicate,
        List.cons.injEq] at h
      have hxy : x = y := by
        have := h.1
        cases x <;> cases y <;> simp_all
      rw [hxy, ih (by simpa using hlen) h.2]

theorem eq_zero_of_keyLe_zero {d : Key} {n : Nat} (hlen : d.length = n)
    (h : keyLe d (List.replicate n false) = true) : d = List.replicate n false := by
  induction n generalizing d with
  | zero =>
    rw [List.length_eq_zero] at hlen
    rw [hlen]; rfl
  | succ n ih =>
    cases d with
    | nil => simp at hlen
    | cons x xs =>
      simp only [keyLe, Bool.not_eq_true'] at h
      cases x with
      | false =>
        rw [List.replicate] at h ⊢
        have hlt : keyLt (false :: List.replicate n false) (false :: xs) =
            keyLt (List.replicate n false) xs := by
          simp [keyLt]
        rw [hlt] at h
        have := ih (d := xs) (by simpa using hlen) (by simp [keyLe, h])
        rw [this]
      | true =>
        rw [List.replicate] at h
        have : keyLt (false :: List.replicate n false) (true :: xs) = true := by
          simp [keyLt]
        rw [this] at h
        cases h

/-!  Helper lemmas: buckets and list bookkeeping. -/

theorem removeId_nil (p : PeerId) : Bucket.removeId [] p = (false, []) := rfl

theorem removeId_cons_hit {x : peerInfo} {p : PeerId} (h : x.Id = p) (xs : Bucket) :
    Bucket.removeId (x :: xs) p = (true, xs) := by
  simp [Bucket.removeId, h]

theorem removeId_cons_miss {x : peerInfo} {p : PeerId} (h : ¬ x.Id = p) (xs : Bucket) :
    Bucket.removeId (x :: xs) p =
      ((Bucket.removeId xs p).1, x :: (Bucket.removeId xs p).2) := by
  simp [Bucket.removeId, h]

theorem removeId_first (pre rest : Bucket) (pc : peerInfo)
    (hpre : ∀ x ∈ pre, x.Id ≠ pc.Id) :
    Bucket.removeId (pre ++ pc :: rest) pc.Id = (true, pre ++ rest) := by
  induction pre with
  | nil => simp [removeId_cons_hit rfl]
  | cons x xs ih =>
    have hx : ¬ x.Id = pc.Id := hpre x (by simp)
    rw [List.cons_append, removeId_cons_miss hx,
      ih (fun y hy => hpre y (by simp [hy]))]
    simp

theorem removeId_true_length {b : Bucket} {p : PeerId} {b2 : Bucket}
    (h : Bucket.removeId b p = (true, b2)) : b.length = b2.length + 1 := by
  induction b generalizing b2 with
  | nil => rw [removeId_nil] at h; cases h
  | cons x xs ih =>
    by_cases hx : x.Id = p
    · rw [removeId_cons_hit hx] at h
      cases h; simp
    · rw [removeId_cons_miss hx] at h
      obtain ⟨h1, h2⟩ := Prod.mk.injEq .. ▸ h
      rcases hr : Bucket.removeId xs p with ⟨r, ys⟩
      rw [hr] at h1 h2
      cases r with
      | false => cases h1
      | true =>
        subst h2
        simp [ih hr]

theorem removeId_false_eq {b : Bucket} {p : PeerId} {b2 : Bucket}
    (h : Bucket.removeId b p = (false, b2)) : b2 = b := by
  induction b generalizing b2 with
  | nil => rw [removeId_nil] at h; cases h; rfl
  | cons x xs ih =>
    by_cases hx : x.Id = p
    · rw [removeId_cons_hit hx] at h; cases h
    · rw [removeId_cons_miss hx] at h
      obtain ⟨h1, h2⟩ := Prod.mk.injEq .. ▸ h
      rcases hr : Bucket.removeId xs p with ⟨r, ys⟩
      rw [hr] at h1 h2
      cases r with
      | false => subst h2; rw [ih hr]
      | true => cases h1

theorem sum_length_set (l : List Bucket) (i : Nat) (b : Bucket) (h : i < l.length) :
    ((l.set i b).map List.length).sum + (l.getD i []).length =
      (l.map List.length).sum + b.length := by
  induction l generalizing i with
  | nil => simp at h
  | cons x xs ih =>
    cases i with
    | zero => simp [List.set]; omega
    | succ j =>
      have hj : j < xs.length := by simpa using h
      have := ih j hj
      simp only [List.set, List.map_cons, List.sum_cons, List.getD_cons_succ]
      omega

theorem getLastD_eq_getD (l : List Bucket) (h : 0 < l.length) :
    l.getLastD [] = l.getD (l.length - 1) [] := by
  induction l with
  | nil => simp at h
  | cons x xs ih =>
    cases xs with
    | nil => rfl
    | cons y ys =>
      have h2 := ih (by simp)
      simpa [List.getLastD] using h2

theorem filter_partition_length (l : List peerInfo) (q : peerInfo → Prop)
    [DecidablePred q] :
    (l.filter (fun x => decide (q x))).length +
      (l.filter (fun x => decide (¬ q x))).length = l.length := by
  have hperm := List.filter_append_perm (fun x => decide (q x)) l
  have hlen := hperm.length_eq
  simp only [List.length_append] at hlen
  simpa [decide_not] using hlen

namespace RoutingTable

theorem splitLast_buckets (rt : RoutingTable) :
    rt.splitLast.buckets = rt.buckets.dropLast ++
      [(rt.buckets.getLastD []).filter
          (fun x => ¬ CommonPrefixLen x.dhtId rt.localKey > rt.buckets.length - 1),
        (rt.buckets.getLastD []).filter
          (fun x => CommonPrefixLen x.dhtId rt.localKey > rt.buckets.length - 1)] := rfl

theorem splitLast_size (rt : RoutingTable) : rt.splitLast.Size = rt.Size := by
  by_cases hl : rt.buckets = []
  · simp [splitLast, Size, hl]
  · have hpos : 0 < rt.buckets.length := List.length_pos.mpr hl
    have hlast : rt.buckets.getLastD [] = rt.buckets.getLast hl := by
      rw [getLastD_eq_getD _ hpos, List.getD_eq_getElem _ _ (by omega),
        List.getLast_eq_getElem]
    have hdecomp : rt.buckets.dropLast ++ [rt.buckets.getLast hl] = rt.buckets :=
      List.dropLast_append_getLast hl
    have hpart := filter_partition_length (rt.buckets.getLastD [])
      (fun x => CommonPrefixLen x.dhtId rt.localKey > rt.buckets.length - 1)
    unfold Size
    rw [splitLast_buckets]
    conv_rhs => rw [← hdecomp]
    simp only [List.map_append, List.sum_append, List.map_cons, List.sum_cons,
      List.map_nil, List.sum_nil, ← hlast]
    omega

theorem getLastD_mem_of_ne_nil {l : List Bucket} (hl : l ≠ []) :
    l.getLastD [] ∈ l := by
  have hpos : 0 < l.length := List.length_pos.mpr hl
  rw [getLastD_eq_getD _ hpos, List.getD_eq_getElem _ _ (by omega)]
  exact List.getElem_mem _

theorem splitLast_cap (rt : RoutingTable)
    (h : ∀ b ∈ rt.buckets, (b.length : Int) ≤ max rt.bucketsize 0) :
    ∀ b ∈ rt.splitLast.buckets, (b.length : Int) ≤ max rt.splitLast.bucketsize 0 := by
  intro b hb
  rw [splitLast_buckets] at hb
  have hlastle : ((rt.buckets.getLastD []).length : Int) ≤ max rt.bucketsize 0 := by
    by_cases hl : rt.buckets = []
    · simp [hl]
    · exact h _ (getLastD_mem_of_ne_nil hl)
  rcases List.mem_append.mp hb with hb1 | hb2
  · exact h b ((List.dropLast_sublist rt.buckets).subset hb1)
  · have hb2' : b = (rt.buckets.getLastD []).filter
        (fun x => ¬ CommonPrefixLen x.dhtId rt.localKey > rt.buckets.length - 1) ∨
        b = (rt.buckets.getLastD []).filter
          (fun x => CommonPrefixLen x.dhtId rt.localKey > rt.buckets.length - 1) := by
      simpa using hb2
    have hble : b.length ≤ (rt.buckets.getLastD []).length := by
      rcases hb2' with h1 | h1 <;> rw [h1] <;> exact List.length_filter_le _ _
    have : (b.length : Int) ≤ ((rt.buckets.getLastD []).length : Int) := by
      exact_mod_cast hble
    exact le_trans this hlastle

theorem splitLast_ne_nil (rt : RoutingTable) : rt.splitLast.buckets ≠ [] := by
  rw [splitLast_buckets]
  simp

theorem splitLast_length (rt : RoutingTable) (h : rt.buckets ≠ []) :
    rt.splitLast.buckets.length = rt.buckets.length + 1 := by
  rw [splitLast_buckets]
  have hpos : 0 < rt.buckets.length := List.length_pos.mpr h
  simp [List.length_dropLast]
  omega

theorem nextBucketF_fields {fuel : Nat} {rt rt2 : RoutingTable}
    (h : rt.nextBucketF fuel = some rt2) :
    rt2.localKey = rt.localKey ∧ rt2.bucketsize = rt.bucketsize ∧
      rt2.toKey = rt.toKey ∧ rt2.latencyEWMA = rt.latencyEWMA ∧
      rt2.maxLatency = rt.maxLatency ∧
      rt2.maxLastSuccessfulOutboundThreshold = rt.maxLastSuccessfulOutboundThreshold ∧
      rt2.rtRefreshInterval = rt.rtRefreshInterval := by
  induction fuel generalizing rt with
  | zero => cases h
  | succ n ih =>
    simp only [nextBucketF] at h
    split at h
    · have hrec := ih h
      exact hrec
    · cases h
      exact ⟨rfl, rfl, rfl, rfl, rfl, rfl, rfl⟩

theorem nextBucketF_size {fuel : Nat} {rt rt2 : RoutingTable}
    (h : rt.nextBucketF fuel = some rt2) : rt2.Size = rt.Size := by
  induction fuel generalizing rt with
  | zero => cases h
  | succ n ih =>
    simp only [nextBucketF] at h
    split at h
    · have hrec := ih h
      rw [hrec, splitLast_size]
    · cases h
      exact splitLast_size rt

theorem nextBucketF_cap {fuel : Nat} {rt rt2 : RoutingTable}
    (h : rt.nextBucketF fuel = some rt2)
    (hc : ∀ b ∈ rt.buckets, (b.length : Int) ≤ max rt.bucketsize 0) :
    ∀ b ∈ rt2.buckets, (b.length : Int) ≤ max rt2.bucketsize 0 := by
  induction fuel generalizing rt with
  | zero => cases h
  | succ n ih =>
    simp only [nextBucketF] at h
    split at h
    · have hrec := ih h (splitLast_cap rt hc)
      exact hrec
    · cases h
      exact splitLast_cap rt hc

theorem nextBucketF_ne_nil {fuel : Nat} {rt rt2 : RoutingTable}
    (h : rt.nextBucketF fuel = some rt2) : rt2.buckets ≠ [] := by
  induction fuel generalizing rt with
  | zero => cases h
  | succ n ih =>
    simp only [nextBucketF] at h
    split at h
    · have hrec := ih h
      exact hrec
    · cases h
      exact splitLast_ne_nil rt

theorem bucketIdForPeer_lt (rt : RoutingTable) (p : PeerId) (h : rt.buckets ≠ []) :
    rt.bucketIdForPeer p < rt.buckets.length := by
  have hpos : 0 < rt.buckets.length := List.length_pos.mpr h
  simp only [bucketIdForPeer]
  split <;> omega

theorem splitLast_getLastD (rt : RoutingTable) :
    rt.splitLast.buckets.getLastD [] =
      (rt.buckets.getLastD []).filter
        (fun x => CommonPrefixLen x.dhtId rt.localKey > rt.buckets.length - 1) := by
  rw [splitLast_buckets]
  rw [show rt.buckets.dropLast ++
      [(rt.buckets.getLastD []).filter
          (fun x => ¬ CommonPrefixLen x.dhtId rt.localKey > rt.buckets.length - 1),
        (rt.buckets.getLastD []).filter
          (fun x => CommonPrefixLen x.dhtId rt.localKey > rt.buckets.length - 1)] =
      (rt.buckets.dropLast ++
        [(rt.buckets.getLastD []).filter
          (fun x => ¬ CommonPrefixLen x.dhtId rt.localKey > rt.buckets.length - 1)]) ++
      [(rt.buckets.getLastD []).filter
          (fun x => CommonPrefixLen x.dhtId rt.localKey > rt.buckets.length - 1)]
    from by simp]
  exact List.getLastD_concat _ _ _

theorem nextBucketF_terminates {fuel : Nat} {rt : RoutingTable}
    (hk : 1 ≤ rt.bucketsize) (hf1 : 1 ≤ fuel)
    (hfm : rt.localKey.length + 2 ≤ fuel + rt.buckets.length) :
    ∃ rt2, rt.nextBucketF fuel = some rt2 ∧
      ((rt2.buckets.getLastD []).length : Int) < rt2.bucketsize := by
  induction fuel generalizing rt with
  | zero => omega
  | succ n ih =>
    simp only [nextBucketF]
    split
    case isTrue hcond =>
      rw [splitLast_getLastD, show rt.splitLast.bucketsize = rt.bucketsize from rfl]
        at hcond
      have hmovedpos :
          0 < ((rt.buckets.getLastD []).filter
            (fun x => CommonPrefixLen x.dhtId rt.localKey > rt.buckets.length - 1)).length := by
        omega
      obtain ⟨x, hx⟩ := List.exists_mem_of_ne_nil _ (List.length_pos.mp hmovedpos)
      have hxcpl : CommonPrefixLen x.dhtId rt.localKey > rt.buckets.length - 1 :=
        of_decide_eq_true (List.mem_filter.mp hx).2
      have hcplW : CommonPrefixLen x.dhtId rt.localKey ≤ rt.localKey.length :=
        cpl_le_right _ _
      have hbne : rt.buckets ≠ [] := by
        intro hnil
        rw [hnil] at hx
        simp [List.getLastD] at hx
      have hlen2 : rt.splitLast.buckets.length = rt.buckets.length + 1 :=
        splitLast_length rt hbne
      have hmpos : 0 < rt.buckets.length := List.length_pos.mpr hbne
      have hk2 : 1 ≤ rt.splitLast.bucketsize := hk
      have hn1 : 1 ≤ n := by omega
      have hcnt : rt.splitLast.localKey.length + 2 ≤ n + rt.splitLast.buckets.length := by
        rw [show rt.splitLast.localKey = rt.localKey from rfl, hlen2]
        omega
      exact @ih rt.splitLast hk2 hn1 hcnt
    case isFalse hcond =>
      exact ⟨rt.splitLast, rfl, by omega⟩

theorem splitLast_assigned (rt : RoutingTable) (h : rt.Assigned)
    (hne : rt.buckets ≠ []) : rt.splitLast.Assigned := by
  intro i hi x hx
  have hm : 0 < rt.buckets.length := List.length_pos.mpr hne
  have hlen2 : rt.splitLast.buckets.length = rt.buckets.length + 1 :=
    splitLast_length rt hne
  have hdl : rt.buckets.dropLast.length = rt.buckets.length - 1 :=
    List.length_dropLast _
  have hlastD : rt.buckets.getLastD [] = rt.buckets.getD (rt.buckets.length - 1) [] := by
    rw [getLastD_eq_getD _ hm]
  rw [show rt.splitLast.localKey = rt.localKey from rfl, hlen2]
  rw [hlen2] at hi
  by_cases h1 : i < rt.buckets.length - 1
  · have hget : rt.splitLast.buckets.getD i [] = rt.buckets.getD i [] := by
      rw [splitLast_buckets, List.getD_eq_getElem _ _ (by simp; omega),
        List.getD_eq_getElem _ _ (by omega),
        List.getElem_append_left (by omega), List.getElem_dropLast _ _ (by omega)]
    rw [hget] at hx
    have hold := h i (by omega) x hx
    omega
  · by_cases h2 : i = rt.buckets.length - 1
    · subst h2
      have hget : rt.splitLast.buckets.getD (rt.buckets.length - 1) [] =
          (rt.buckets.getLastD []).filter
            (fun y => ¬ CommonPrefixLen y.dhtId rt.localKey > rt.buckets.length - 1) := by
        rw [splitLast_buckets,
          List.getD_eq_getElem _ _ (by rw [← splitLast_buckets, hlen2]; omega),
          List.getElem_append_right (by omega)]
        simp only [show rt.buckets.length - 1 - rt.buckets.dropLast.length = 0 from by omega,
          List.getElem_cons_zero]
      rw [hget] at hx
      obtain ⟨hxb, hxp⟩ := List.mem_filter.mp hx
      have hxple : ¬ CommonPrefixLen x.dhtId rt.localKey > rt.buckets.length - 1 :=
        of_decide_eq_true hxp
      rw [hlastD] at hxb
      have hold := h (rt.buckets.length - 1) (by omega) x hxb
      omega
    · have h3 : i = rt.buckets.length := by omega
      subst h3
      have hget : rt.splitLast.buckets.getD rt.buckets.length [] =
          (rt.buckets.getLastD []).filter
            (fun y => CommonPrefixLen y.dhtId rt.localKey > rt.buckets.length - 1) := by
        rw [splitLast_buckets,
          List.getD_eq_getElem _ _ (by rw [← splitLast_buckets, hlen2]; omega),
          List.getElem_append_right (by omega)]
        simp only [show rt.buckets.length - rt.buckets.dropLast.length = 1 from by omega,
          List.getElem_cons_succ, List.getElem_cons_zero]
      rw [hget] at hx
      obtain ⟨hxb, hxp⟩ := List.mem_filter.mp hx
      have hxpgt : CommonPrefixLen x.dhtId rt.localKey > rt.buckets.length - 1 :=
        of_decide_eq_true hxp
      omega

theorem sweep_skip (rt : RoutingTable) (bid : Nat) (bkt : Bucket) (newRec : peerInfo)
    (now : Int) (work : List peerInfo)
    (hall : ∀ x ∈ work, rt.isStale now x = false) :
    rt.sweep bid bkt newRec now work = (rt, false, some AddErr.noCapacity, []) := by
  induction work with
  | nil => rfl
  | cons pc rest ih =>
    have hpc : rt.isStale now pc = false := hall pc (by simp)
    simp only [sweep, hpc, Bool.false_eq_true, if_false]
    exact ih (fun x hx => hall x (by simp [hx]))

theorem sweep_hits (rt : RoutingTable) (bid : Nat) (bkt : Bucket) (newRec : peerInfo)
    (now : Int) (wpre : List peerInfo) (pc : peerInfo) (wrest : List peerInfo)
    (b2 : Bucket)
    (hwpre : ∀ x ∈ wpre, rt.isStale now x = false)
    (hpc : rt.isStale now pc = true)
    (hrem : Bucket.removeId bkt pc.Id = (true, b2)) :
    rt.sweep bid bkt newRec now (wpre ++ pc :: wrest) =
      (rt.setBucket bid (Bucket.pushFront b2 newRec), true, none,
        [Event.added newRec.Id]) := by
  induction wpre with
  | nil =>
    simp only [List.nil_append, sweep, hpc, if_true, hrem]
  | cons x wpre2 ih =>
    have hx : rt.isStale now x = false := hwpre x (by simp)
    simp only [List.cons_append, sweep, hx, Bool.false_eq_true, if_false]
    exact ih (fun y hy => hwpre y (by simp [hy]))

theorem sweep_cases (rt : RoutingTable) (bid : Nat) (bkt : Bucket) (newRec : peerInfo)
    (now : Int) (work : List peerInfo) :
    rt.sweep bid bkt newRec now work = (rt, false, some AddErr.noCapacity, []) ∨
    ∃ b2, (∃ pc ∈ work, Bucket.removeId bkt pc.Id = (true, b2)) ∧
      rt.sweep bid bkt newRec now work =
        (rt.setBucket bid (Bucket.pushFront b2 newRec), true, none,
          [Event.added newRec.Id]) := by
  induction work with
  | nil => left; rfl
  | cons pc rest ih =>
    by_cases hst : rt.isStale now pc = true
    · rcases hrem : Bucket.removeId bkt pc.Id with ⟨r, b2⟩
      cases r with
      | true =>
        right
        refine ⟨b2, ⟨pc, by simp, hrem⟩, ?_⟩
        simp only [sweep, hst, if_true, hrem]
      | false =>
        have hstep : rt.sweep bid bkt newRec now (pc :: rest) =
            rt.sweep bid bkt newRec now rest := by
          simp only [sweep, hst, if_true, hrem]
        rw [hstep]
        rcases ih with h1 | ⟨b3, ⟨pc2, hmem, hrem2⟩, h2⟩
        · left; exact h1
        · right; exact ⟨b3, ⟨pc2, by simp [hmem], hrem2⟩, h2⟩
    · have hst2 : rt.isStale now pc = false := by
        cases h : rt.isStale now pc
        · rfl
        · exact absurd h hst
      have hstep : rt.sweep bid bkt newRec now (pc :: rest) =
          rt.sweep bid bkt newRec now rest := by
        simp only [sweep, hst2, Bool.false_eq_true, if_false]
      rw [hstep]
      rcases ih with h1 | ⟨b3, ⟨pc2, hmem, hrem2⟩, h2⟩
      · left; exact h1
      · right; exact ⟨b3, ⟨pc2, by simp [hmem], hrem2⟩, h2⟩

theorem setLastQ_length (b : Bucket) (p : PeerId) (t : Int) :
    (Bucket.setLastQ b p t).length = b.length := by
  induction b with
  | nil => rfl
  | cons x xs ih =>
    by_cases hx : x.Id = p <;> simp [Bucket.setLastQ, hx, ih]

theorem getD_cap {rt : RoutingTable}
    (hc : ∀ b ∈ rt.buckets, (b.length : Int) ≤ max rt.bucketsize 0) (i : Nat) :
    ((rt.buckets.getD i []).length : Int) ≤ max rt.bucketsize 0 := by
  by_cases hi : i < rt.buckets.length
  · rw [List.getD_eq_getElem _ _ hi]
    exact hc _ (List.getElem_mem _)
  · rw [List.getD_eq_default _ _ (by omega)]
    simp

theorem setBucket_cap {rt : RoutingTable} {b2 : Bucket}
    (hc : ∀ b ∈ rt.buckets, (b.length : Int) ≤ max rt.bucketsize 0) (i : Nat)
    (hb2 : (b2.length : Int) ≤ max rt.bucketsize 0) :
    ∀ b ∈ (rt.setBucket i b2).buckets,
      (b.length : Int) ≤ max (rt.setBucket i b2).bucketsize 0 := by
  intro b hb
  rcases List.mem_or_eq_of_mem_set hb with h1 | h1
  · exact hc b h1
  · rw [h1]; exact hb2

theorem addPeer_cap {rt : RoutingTable} {p : PeerId} {q : Bool} {now : Int}
    {rt2 : RoutingTable} {a : Bool} {e : Option AddErr} {evs : List Event}
    (h : rt.addPeer p q now = some (rt2, a, e, evs))
    (hc : ∀ b ∈ rt.buckets, (b.length : Int) ≤ max rt.bucketsize 0) :
    ∀ b ∈ rt2.buckets, (b.length : Int) ≤ max rt2.bucketsize 0 := by
  simp only [addPeer] at h
  split at h
  · cases h; exact hc
  · split at h
    · cases h; exact hc
    · split at h
      case isTrue hroom =>
        cases h
        apply setBucket_cap hc
        have := getD_cap hc (rt.bucketIdForPeer p)
        simp only [Bucket.pushFront, List.length_cons]
        push_cast
        omega
      case isFalse hfull =>
        split at h
        · split at h
          · cases h
          case h_2 rtu hnb =>
            have hcu := nextBucketF_cap hnb hc
            split at h
            case isTrue hroom2 =>
              cases h
              apply setBucket_cap hcu
              have := getD_cap hcu (rtu.bucketIdForPeer p)
              simp only [Bucket.pushFront, List.length_cons]
              push_cast
              omega
            case isFalse hfull2 =>
              rcases sweep_cases rtu (rtu.bucketIdForPeer p)
                  (rtu.buckets.getD (rtu.bucketIdForPeer p) [])
                  ⟨p, if q then now else 0, rt.toKey p⟩ now
                  (rtu.buckets.getD (rtu.bucketIdForPeer p) []) with hs | ⟨b2, ⟨pc, hmem, hrem⟩, hs⟩
              · rw [hs] at h; cases h; exact hcu
              · rw [hs] at h; cases h
                apply setBucket_cap hcu
                have hlen := removeId_true_length hrem
                have := getD_cap hcu (rtu.bucketIdForPeer p)
                simp only [Bucket.pushFront, List.length_cons]
                push_cast at this ⊢
                omega
        · rcases sweep_cases rt (rt.bucketIdForPeer p)
              (rt.buckets.getD (rt.bucketIdForPeer p) [])
              ⟨p, if q then now else 0, rt.toKey p⟩ now
              (rt.buckets.getD (rt.bucketIdForPeer p) []) with hs | ⟨b2, ⟨pc, hmem, hrem⟩, hs⟩
          · rw [hs] at h; cases h; exact hc
          · rw [hs] at h; cases h
            apply setBucket_cap hc
            have hlen := removeId_true_length hrem
            have := getD_cap hc (rt.bucketIdForPeer p)
            simp only [Bucket.pushFront, List.length_cons]
            push_cast at this ⊢
            omega

theorem removePeerOp_cap {rt : RoutingTable} {p : PeerId}
    (hc : ∀ b ∈ rt.buckets, (b.length : Int) ≤ max rt.bucketsize 0) :
    ∀ b ∈ (rt.removePeerOp p).1.buckets,
      (b.length : Int) ≤ max (rt.removePeerOp p).1.bucketsize 0 := by
  rcases hrem : Bucket.removeId (rt.buckets.getD (rt.bucketIdForPeer p) []) p
    with ⟨r, b2⟩
  cases r with
  | false =>
    simp only [removePeerOp, hrem]
    exact hc
  | true =>
    simp only [removePeerOp, hrem]
    apply setBucket_cap hc
    have hlen := removeId_true_length hrem
    have := getD_cap hc (rt.bucketIdForPeer p)
    push_cast at this ⊢
    omega

theorem updateLastQ_cap {rt : RoutingTable} {p : PeerId} {t : Int}
    (hc : ∀ b ∈ rt.buckets, (b.length : Int) ≤ max rt.bucketsize 0) :
    ∀ b ∈ (rt.updateLastQ p t).1.buckets,
      (b.length : Int) ≤ max (rt.updateLastQ p t).1.bucketsize 0 := by
  simp only [updateLastQ]
  split
  · apply setBucket_cap hc
    rw [setLastQ_length]
    exact getD_cap hc (rt.bucketIdForPeer p)
  · exact hc

theorem mem_ListPeers {rt : RoutingTable} {x : peerInfo} (i : Nat)
    (hi : i < rt.buckets.length) (hx : x ∈ rt.buckets.getD i []) :
    x.Id ∈ rt.ListPeers := by
  unfold ListPeers
  rw [List.mem_flatten]
  refine ⟨Bucket.ids (rt.buckets.getD i []), ?_, ?_⟩
  · rw [List.getD_eq_getElem _ _ hi]
    exact List.mem_map_of_mem Bucket.ids (List.getElem_mem _)
  · exact List.mem_map_of_mem peerInfo.Id hx

end RoutingTable

/-!  The claims. -/

/-- Counterexample to C1 as stated: on a fresh table with room, the local
peer — id `0`, whose key is exactly the local key — is admitted by
`TryAddPeer` (the result flag is `true` with no error) and is afterwards
present in a bucket, so the self-exclusion invariant does not hold. -/
theorem C1_cex :
    (mkT [[]] 1 10).toKey 0 = (mkT [[]] 1 10).localKey ∧
    ((mkT [[]] 1 10).addPeer 0 false 5).map (fun r => (r.2.1, r.2.2.1)) =
      some (true, none) ∧
    ((mkT [[]] 1 10).addPeer 0 false 5).map (fun r => r.1.ListPeers) = some [0] := by
  exact ⟨rfl, rfl, rfl⟩

/-- C1 (corrected): `TryAddPeer` performs no self-exclusion check.  Whenever
the peer id hashes to the local key itself, is absent from its assigned
bucket, passes the latency check, and the bucket has spare room, the
admission operation admits it for either value of the query flag and the
local peer is then present in the table. -/
theorem C1_no_self_exclusion (rt : RoutingTable) (p : PeerId) (q : Bool) (now : Int)
    (hke : rt.toKey p = rt.localKey)
    (hne : rt.buckets ≠ [])
    (habs : Bucket.getPeer (rt.buckets.getD (rt.bucketIdForPeer p) []) p = none)
    (hlat : ¬ rt.latencyEWMA p > rt.maxLatency)
    (hroom : ((rt.buckets.getD (rt.bucketIdForPeer p) []).length : Int) < rt.bucketsize) :
    rt.addPeer p q now = some
      (rt.setBucket (rt.bucketIdForPeer p)
        (Bucket.pushFront (rt.buckets.getD (rt.bucketIdForPeer p) [])
          ⟨p, if q then now else 0, rt.toKey p⟩), true, none, [Event.added p]) ∧
    p ∈ (rt.setBucket (rt.bucketIdForPeer p)
        (Bucket.pushFront (rt.buckets.getD (rt.bucketIdForPeer p) [])
          ⟨p, if q then now else 0, rt.toKey p⟩)).ListPeers := by
  constructor
  · simp only [RoutingTable.addPeer, habs, Option.isSome_none, Bool.false_eq_true,
      if_false, if_neg hlat, if_pos hroom]
  · have hbid : rt.bucketIdForPeer p < rt.buckets.length :=
      RoutingTable.bucketIdForPeer_lt rt p hne
    have hset : (rt.setBucket (rt.bucketIdForPeer p)
        (Bucket.pushFront (rt.buckets.getD (rt.bucketIdForPeer p) [])
          ⟨p, if q then now else 0, rt.toKey p⟩)).buckets.getD
          (rt.bucketIdForPeer p) [] =
        Bucket.pushFront (rt.buckets.getD (rt.bucketIdForPeer p) [])
          ⟨p, if q then now else 0, rt.toKey p⟩ := by
      simp only [RoutingTable.setBucket]
      rw [List.getD_eq_getElem _ _ (by simpa using hbid)]
      exact List.getElem_set_self _
    have h1 : rt.bucketIdForPeer p < (rt.setBucket (rt.bucketIdForPeer p)
        (Bucket.pushFront (rt.buckets.getD (rt.bucketIdForPeer p) [])
          ⟨p, if q then now else 0, rt.toKey p⟩)).buckets.length := by
      simp only [RoutingTable.setBucket, List.length_set]
      exact hbid
    have h2 : (⟨p, if q then now else 0, rt.toKey p⟩ : peerInfo) ∈
        (rt.setBucket (rt.bucketIdForPeer p)
          (Bucket.pushFront (rt.buckets.getD (rt.bucketIdForPeer p) [])
            ⟨p, if q then now else 0, rt.toKey p⟩)).buckets.getD
            (rt.bucketIdForPeer p) [] := by
      rw [hset]
      simp [Bucket.pushFront]
    exact @RoutingTable.mem_ListPeers _ _ (rt.bucketIdForPeer p) h1 h2

/-- Witness for the corrected C1 at a concrete fresh table: peer 0 is the
local peer under the `tk4` hash and is admitted. -/
theorem C1_no_self_exclusion_witness :
    (mkT [[]] 1 10).addPeer 0 false 5 = some
      ((mkT [[]] 1 10).setBucket ((mkT [[]] 1 10).bucketIdForPeer 0)
        (Bucket.pushFront ((mkT [[]] 1 10).buckets.getD
            ((mkT [[]] 1 10).bucketIdForPeer 0) [])
          ⟨0, if false then 5 else 0, (mkT [[]] 1 10).toKey 0⟩), true, none,
        [Event.added 0]) ∧
    0 ∈ ((mkT [[]] 1 10).setBucket ((mkT [[]] 1 10).bucketIdForPeer 0)
        (Bucket.pushFront ((mkT [[]] 1 10).buckets.getD
            ((mkT [[]] 1 10).bucketIdForPeer 0) [])
          ⟨0, if false then 5 else 0, (mkT [[]] 1 10).toKey 0⟩)).ListPeers :=
  C1_no_self_exclusion (mkT [[]] 1 10) 0 false 5 rfl (by decide) rfl (by decide)
    (by decide)

theorem float64Nat_maxInt64 : float64Nat 9223372036854775807 = 9223372036854775808 := by
  have hlog : Nat.log2 9223372036854775807 = 62 := by
    rw [Nat.log2_eq_log_two]
    exact Nat.log_eq_of_pow_le_of_lt_pow (by norm_num) (by norm_num)
  simp only [float64Nat, hlog]
  norm_num

theorem float64Int_maxDuration : float64Int maxDuration = 9223372036854775808 := by
  have h1 : maxDuration.toNat = 9223372036854775807 := by decide
  simp only [float64Int, maxDuration]
  rw [if_pos (by decide)]
  rw [show (9223372036854775807 : Int).toNat = 9223372036854775807 from rfl]
  rw [float64Nat_maxInt64]
  rfl

/-- Counterexample to C6 as stated: the age of a never-queried record does
not exceed every threshold — at the representable float64 threshold `2^63`
nanoseconds the saturated age `float64(maxInt64)` equals the threshold
exactly, so the record is not considered stale by the eviction sweep. -/
theorem C6_cex :
    (mkT [[rec4 1 0]] 1 ((9223372036854775808 : ℚ))).isStale 9223372036854775808
      (rec4 1 0) = false := by
  have hsub : durSub 9223372036854775808 (rec4 1 0).lastSuccessfulOutboundQuery =
      maxDuration := by
    simp only [rec4, durSub, maxDuration, minDuration]
    decide
  simp only [RoutingTable.isStale, hsub, float64Int_maxDuration]
  rw [decide_eq_false]
  simp only [mkT, gt_iff_lt]
  push_cast
  exact lt_irrefl _

/-- C6 (corrected): in the eviction sweep of `TryAddPeer`, a record whose
`lastSuccessfulOutboundQuery` is unset (the zero timestamp) compares as stale
for every configured threshold strictly below `2^63` nanoseconds, for any
current time more than `maxInt64` nanoseconds past the zero time (true of
every realistic clock, the zero time being year 1): the age saturates at
`maxInt64` and `float64(maxInt64)` rounds to exactly `2^63`, so the age is
maximal but not infinite. -/
theorem C6_zero_timestamp_stale (rt : RoutingTable) (now : Int) (x : peerInfo)
    (hx : x.lastSuccessfulOutboundQuery = 0)
    (hnow : maxDuration < now)
    (hthr : rt.maxLastSuccessfulOutboundThreshold < ((9223372036854775808 : ℚ))) :
    rt.isStale now x = true := by
  have hsub : durSub now x.lastSuccessfulOutboundQuery = maxDuration := by
    rw [hx]
    simp only [durSub, maxDuration, minDuration] at hnow ⊢
    omega
  simp only [RoutingTable.isStale, hsub, float64Int_maxDuration]
  rw [decide_eq_true]
  simp only [gt_iff_lt]
  push_cast
  exact_mod_cast hthr

/-- Witness for the corrected C6: with threshold 10 and a present-day clock,
a never-queried record is stale. -/
theorem C6_zero_timestamp_stale_witness :
    (mkT [[rec4 1 0]] 1 10).isStale 9223372036854775808 (rec4 1 0) = true :=
  C6_zero_timestamp_stale (mkT [[rec4 1 0]] 1 10) 9223372036854775808 (rec4 1 0)
    rfl (by decide) (by norm_num [mkT])

/-- Every reachable state keeps every bucket within `max bucketsize 0`. -/
theorem reachable_cap {rt : RoutingTable} (hr : Reachable rt) :
    ∀ b ∈ rt.buckets, (b.length : Int) ≤ max rt.bucketsize 0 := by
  induction hr with
  | init localKey bucketsize maxLatency latencyEWMA threshold toKey refresh =>
    intro b hb
    simp only [freshTable, List.mem_singleton] at hb
    subst hb
    simp
  | add rt rt2 p q now added err evs hr h ih => exact RoutingTable.addPeer_cap h ih
  | remove rt p hr ih => exact RoutingTable.removePeerOp_cap ih
  | update rt p t hr ih => exact RoutingTable.updateLastQ_cap ih

/-- C7 (confirmed): capacity invariant — in every state reachable by the
public operations whose configured bucket size is non-negative, every bucket
(in particular every non-last bucket, and the last bucket at the moment any
admission has returned) holds at most `bucketsize` records. -/
theorem C7_capacity_invariant (rt : RoutingTable) (hr : Reachable rt)
    (hk : 0 ≤ rt.bucketsize) :
    ∀ b ∈ rt.buckets, (b.length : Int) ≤ rt.bucketsize := by
  intro b hb
  have := reachable_cap hr b hb
  omega

/-- Witness for C7 at a concrete reachable table (a fresh table) and its
single (empty) bucket. -/
theorem C7_capacity_invariant_witness :
    (([] : Bucket).length : Int) ≤
      (freshTable (tk4 0) 2 100 (fun _ => 0) 10 tk4 30).bucketsize :=
  C7_capacity_invariant _ (Reachable.init (tk4 0) 2 100 (fun _ => 0) 10 tk4 30)
    (by decide) [] (by decide)

/-- Counterexample to C8 as stated: with bucket capacity 0 — which the
constructor accepts — the unfold cascade never terminates: the canonical
fuel and a far larger fuel are both exhausted on a fresh table, because the
new last bucket, even empty, always has length at least the capacity. -/
theorem C8_cex :
    (mkT [[]] 0 10).nextBucketF ((mkT [[]] 0 10).nextBucketFuel) = none ∧
    (mkT [[]] 0 10).nextBucketF 64 = none := by
  exact ⟨rfl, rfl⟩

/-- C8 (corrected): for every table whose bucket capacity is at least 1, the
unfold cascade `nextBucket` terminates within the canonical fuel — each
recursive split works at a strictly greater depth and common prefix lengths
are bounded by the key width — and it leaves a last bucket of length
strictly below the capacity. -/
theorem C8_nextBucket_terminates (rt : RoutingTable) (hk : 1 ≤ rt.bucketsize) :
    ∃ rt2, rt.nextBucketF rt.nextBucketFuel = some rt2 ∧
      ((rt2.buckets.getLastD []).length : Int) < rt2.bucketsize :=
  RoutingTable.nextBucketF_terminates hk
    (by simp only [RoutingTable.nextBucketFuel]; omega)
    (by simp only [RoutingTable.nextBucketFuel]; omega)

/-- Witness for the corrected C8 at a concrete table with capacity 1. -/
theorem C8_nextBucket_terminates_witness :
    ∃ rt2, (mkT [[]] 1 10).nextBucketF ((mkT [[]] 1 10).nextBucketFuel) = some rt2 ∧
      ((rt2.buckets.getLastD []).length : Int) < rt2.bucketsize :=
  C8_nextBucket_terminates (mkT [[]] 1 10) (by decide)

/-- C9 (confirmed): liveness eviction is gated by the connectedness
re-check.  In the per-record step of the background loop: if the peer is
connected at the re-check the table is unchanged and no event fires; if the
probe did not fail nothing happens either; and whenever any event fires, the
probe must have failed, the peer must have been disconnected, and the only
event is the removal of that peer. -/
theorem C9_liveness_gating (rt : RoutingTable) (ps : peerInfo) (now : Int)
    (probeFails connected : Bool) :
    (connected = true → rt.backgroundCheckPeer ps now probeFails connected = (rt, [])) ∧
    (probeFails = false → rt.backgroundCheckPeer ps now probeFails connected = (rt, [])) ∧
    ((rt.backgroundCheckPeer ps now probeFails connected).2 ≠ [] →
      probeFails = true ∧ connected = false ∧
      (rt.backgroundCheckPeer ps now probeFails connected).2 = [Event.removed ps.Id]) := by
  unfold RoutingTable.backgroundCheckPeer
  refine ⟨?_, ?_, ?_⟩
  · intro hc
    subst hc
    split
    · split
      · simp
      · rfl
    · rfl
  · intro hp
    subst hp
    split
    · rfl
    · rfl
  · intro hne
    by_cases hdue : durSub now ps.lastSuccessfulOutboundQuery > rt.rtRefreshInterval / 3
    · rw [if_pos hdue] at hne ⊢
      cases probeFails with
      | false => simp at hne
      | true =>
        rw [if_pos rfl] at hne ⊢
        cases connected with
        | true => simp at hne
        | false =>
          refine ⟨rfl, rfl, ?_⟩
          simp only [Bool.false_eq_true, not_false_eq_true, if_true] at hne ⊢
          rcases hrem : Bucket.removeId
              (rt.buckets.getD (rt.bucketIdForPeer ps.Id) []) ps.Id with ⟨r, b2⟩
          cases r with
          | false =>
            simp only [RoutingTable.removePeerOp, hrem] at hne
            exact absurd rfl hne
          | true =>
            simp only [RoutingTable.removePeerOp, hrem]
    · rw [if_neg hdue] at hne
      exact absurd rfl hne

/-- Witness for C9: a connected peer survives a failed probe. -/
theorem C9_liveness_gating_witness :
    (mkT [[rec4 1 0]] 1 10).backgroundCheckPeer (rec4 1 0) 100 true true =
      (mkT [[rec4 1 0]] 1 10, []) :=
  (C9_liveness_gating (mkT [[rec4 1 0]] 1 10) (rec4 1 0) 100 true true).1 rfl

theorem RoutingTable.splitLast_getD_last (rt : RoutingTable) (hne : rt.buckets ≠ []) :
    rt.splitLast.buckets.getD (rt.buckets.length - 1) [] =
      (rt.buckets.getLastD []).filter
        (fun y => ¬ CommonPrefixLen y.dhtId rt.localKey > rt.buckets.length - 1) := by
  have hm : 0 < rt.buckets.length := List.length_pos.mpr hne
  have hlen2 : rt.splitLast.buckets.length = rt.buckets.length + 1 :=
    RoutingTable.splitLast_length rt hne
  have hdl : rt.buckets.dropLast.length = rt.buckets.length - 1 :=
    List.length_dropLast _
  rw [RoutingTable.splitLast_buckets,
    List.getD_eq_getElem _ _ (by rw [← RoutingTable.splitLast_buckets, hlen2]; omega),
    List.getElem_append_right (by omega)]
  simp only [show rt.buckets.length - 1 - rt.buckets.dropLast.length = 0 from by omega,
    List.getElem_cons_zero]

/-- Counterexample to C2 as stated: splitting the single (last) bucket of a
table at depth 0 moves the record sharing at least one bit with the local key
into the NEW appended bucket; it does not remain in the original bucket as
the claim asserts. -/
theorem C2_cex :
    ((mkT [[rec4 1 0, rec4 3 0]] 2 10).nextBucketF
        ((mkT [[rec4 1 0, rec4 3 0]] 2 10).nextBucketFuel)).map
      (fun r => r.buckets) = some [[rec4 3 0], [rec4 1 0]] ∧
    0 + 1 ≤ CommonPrefixLen (rec4 1 0).dhtId (mkT [[rec4 1 0, rec4 3 0]] 2 10).localKey ∧
    rec4 1 0 ∉ [[rec4 3 0], [rec4 1 0]].getD 0 [] := by
  exact ⟨rfl, by decide, by decide⟩

/-- C2 (corrected): when `nextBucket` splits the last bucket at depth
`d = m-1` of a table satisfying the assignment invariant, the records sharing
at least `d+1` bits with the local key form the NEW bucket appended at the
end, the records sharing exactly `d` bits remain in the original bucket, and
afterwards every record with common prefix length `c` resides in
`B[min(c, m_new - 1)]` where `m_new = m + 1`. -/
theorem C2_split_assignment (rt : RoutingTable) (ha : rt.Assigned)
    (hne : rt.buckets ≠ []) :
    (∀ x ∈ rt.splitLast.buckets.getLastD [],
        rt.buckets.length - 1 + 1 ≤ CommonPrefixLen x.dhtId rt.localKey) ∧
    (∀ x ∈ rt.splitLast.buckets.getD (rt.buckets.length - 1) [],
        CommonPrefixLen x.dhtId rt.localKey = rt.buckets.length - 1) ∧
    rt.splitLast.Assigned := by
  have hm : 0 < rt.buckets.length := List.length_pos.mpr hne
  refine ⟨?_, ?_, RoutingTable.splitLast_assigned rt ha hne⟩
  · intro x hx
    rw [RoutingTable.splitLast_getLastD] at hx
    have := of_decide_eq_true (List.mem_filter.mp hx).2
    omega
  · intro x hx
    rw [RoutingTable.splitLast_getD_last rt hne] at hx
    obtain ⟨hxb, hxp⟩ := List.mem_filter.mp hx
    have hle := of_decide_eq_true hxp
    have hlastD : rt.buckets.getLastD [] =
        rt.buckets.getD (rt.buckets.length - 1) [] := by
      rw [getLastD_eq_getD _ hm]
    rw [hlastD] at hxb
    have hold := ha (rt.buckets.length - 1) (by omega) x hxb
    omega

/-- Witness for the corrected C2 at a concrete two-record table. -/
theorem C2_split_assignment_witness :
    (∀ x ∈ (mkT [[rec4 1 0, rec4 3 0]] 2 10).splitLast.buckets.getLastD [],
        (mkT [[rec4 1 0, rec4 3 0]] 2 10).buckets.length - 1 + 1 ≤
          CommonPrefixLen x.dhtId (mkT [[rec4 1 0, rec4 3 0]] 2 10).localKey) ∧
    (∀ x ∈ (mkT [[rec4 1 0, rec4 3 0]] 2 10).splitLast.buckets.getD
        ((mkT [[rec4 1 0, rec4 3 0]] 2 10).buckets.length - 1) [],
        CommonPrefixLen x.dhtId (mkT [[rec4 1 0, rec4 3 0]] 2 10).localKey =
          (mkT [[rec4 1 0, rec4 3 0]] 2 10).buckets.length - 1) ∧
    (mkT [[rec4 1 0, rec4 3 0]] 2 10).splitLast.Assigned :=
  C2_split_assignment (mkT [[rec4 1 0, rec4 3 0]] 2 10)
    (by unfold RoutingTable.Assigned; decide) (by decide)

/-- Counterexample to C3 as stated: a stale eviction admission in which the
eviction sweep runs (peer absent, latency fine, non-last bucket full, first
record stale): the new peer is admitted at the front and `(true, ok)` is
returned, but the only callback event is `added 4` — `onPeerRemoved` does
NOT fire for the evicted peer 3, because the sweep removes through
`bucket.remove` rather than `rt.removePeer`. -/
theorem C3_cex :
    ((mkT [[rec4 3 0], [rec4 1 0]] 1 10).addPeer 4 true 100).map
      (fun r => (r.1.buckets, r.2.1, r.2.2.1, r.2.2.2)) =
      some ([[⟨4, 100, tk4 4⟩], [rec4 1 0]], true, none, [Event.added 4]) ∧
    Event.removed 3 ∉ ([Event.added 4] : List Event) := by
  exact ⟨rfl, by decide⟩

/-- C3 (corrected): stale eviction with the admission callback only.  If
peer `p` is absent from its assigned bucket, its latency is acceptable, the
bucket is full, and — after the unfold when that bucket is the last one
(`sweepTarget`) — the re-resolved bucket is still full and decomposes as
`pre ++ pc :: rest` with every record of `pre` fresh, `pc` stale, and no id
of `pre` equal to `pc.Id`, then `TryAddPeer(p, true)` removes `pc` (the
first stale record in front-first order), pushes the new record at the
front, and returns `(true, ok)` firing exactly one `onPeerAdded` event and
NO `onPeerRemoved` event. -/
theorem C3_stale_eviction (rt : RoutingTable) (p : PeerId) (now : Int)
    (rt2 : RoutingTable) (bid2 : Nat) (pre : Bucket) (pc : peerInfo) (rest : Bucket)
    (habs : Bucket.getPeer (rt.buckets.getD (rt.bucketIdForPeer p) []) p = none)
    (hlat : ¬ rt.latencyEWMA p > rt.maxLatency)
    (hfull : ¬ ((rt.buckets.getD (rt.bucketIdForPeer p) []).length : Int) < rt.bucketsize)
    (hsw : rt.sweepTarget p = some (rt2, bid2))
    (hfull2 : ¬ ((rt2.buckets.getD bid2 []).length : Int) < rt2.bucketsize)
    (hbkt : rt2.buckets.getD bid2 [] = pre ++ pc :: rest)
    (hpre : ∀ x ∈ pre, rt2.isStale now x = false)
    (hpc : rt2.isStale now pc = true)
    (hids : ∀ x ∈ pre, x.Id ≠ pc.Id) :
    rt.addPeer p true now = some
      (rt2.setBucket bid2 (Bucket.pushFront (pre ++ rest) ⟨p, now, rt.toKey p⟩),
        true, none, [Event.added p]) := by
  have hrem : Bucket.removeId (pre ++ pc :: rest) pc.Id = (true, pre ++ rest) :=
    removeId_first pre rest pc hids
  simp only [RoutingTable.addPeer, habs, Option.isSome_none, Bool.false_eq_true,
    if_false, if_neg hlat, if_neg hfull]
  simp only [RoutingTable.sweepTarget] at hsw
  by_cases hlast : rt.bucketIdForPeer p = rt.buckets.length - 1
  · rw [if_pos hlast] at hsw
    rw [if_pos hlast]
    rcases hnb : rt.nextBucketF rt.nextBucketFuel with _ | rtu
    · rw [hnb] at hsw; cases hsw
    · rw [hnb] at hsw
      dsimp only at hsw
      have h1 := Option.some.inj hsw
      obtain ⟨hrt, hbid⟩ : rtu = rt2 ∧ rtu.bucketIdForPeer p = bid2 :=
        ⟨congrArg Prod.fst h1, congrArg Prod.snd h1⟩
      subst hrt
      dsimp only
      rw [hbid, if_neg hfull2, hbkt]
      have hs := RoutingTable.sweep_hits rtu bid2 (pre ++ pc :: rest)
        ⟨p, if true then now else 0, rt.toKey p⟩ now pre pc rest (pre ++ rest)
        hpre hpc hrem
      exact (congrArg some hs).trans rfl
  · rw [if_neg hlast] at hsw
    rw [if_neg hlast]
    have h1 := Option.some.inj hsw
    obtain ⟨hrt, hbid⟩ : rt = rt2 ∧ rt.bucketIdForPeer p = bid2 :=
      ⟨congrArg Prod.fst h1, congrArg Prod.snd h1⟩
    subst hrt
    rw [hbid, hbkt]
    have hs := RoutingTable.sweep_hits rt bid2 (pre ++ pc :: rest)
      ⟨p, if true then now else 0, rt.toKey p⟩ now pre pc rest (pre ++ rest)
      hpre hpc hrem
    exact (congrArg some hs).trans rfl

/-- Witness for the corrected C3: peer 4 evicts the stale peer 3 from the
full non-last bucket 0 and only the `added` event fires. -/
theorem C3_stale_eviction_witness :
    (mkT [[rec4 3 0], [rec4 1 0]] 1 10).addPeer 4 true 100 = some
      ((mkT [[rec4 3 0], [rec4 1 0]] 1 10).setBucket 0
        (Bucket.pushFront ([] ++ []) ⟨4, 100, (mkT [[rec4 3 0], [rec4 1 0]] 1 10).toKey 4⟩),
        true, none, [Event.added 4]) :=
  C3_stale_eviction (mkT [[rec4 3 0], [rec4 1 0]] 1 10) 4 100
    (mkT [[rec4 3 0], [rec4 1 0]] 1 10) 0 [] (rec4 3 0) []
    rfl (by decide) (by decide) rfl (by decide) rfl
    (by intro x hx; cases hx) (by decide) (by intro x hx; cases hx)

theorem RoutingTable.setBucket_bucketIdForPeer (rt : RoutingTable) (i : Nat)
    (b : Bucket) (p : PeerId) :
    (rt.setBucket i b).bucketIdForPeer p = rt.bucketIdForPeer p := by
  simp only [RoutingTable.bucketIdForPeer, RoutingTable.setBucket, List.length_set]

theorem RoutingTable.push_then_remove (rt : RoutingTable) (p : PeerId)
    (newRec : peerInfo) (hid : newRec.Id = p)
    (hbid : rt.bucketIdForPeer p < rt.buckets.length) :
    ((rt.setBucket (rt.bucketIdForPeer p)
        (Bucket.pushFront (rt.buckets.getD (rt.bucketIdForPeer p) [])
          newRec)).removePeerOp p).2 = [Event.removed p] ∧
    ((rt.setBucket (rt.bucketIdForPeer p)
        (Bucket.pushFront (rt.buckets.getD (rt.bucketIdForPeer p) [])
          newRec)).removePeerOp p).1.Size = rt.Size := by
  have hbid2 : (rt.setBucket (rt.bucketIdForPeer p)
      (Bucket.pushFront (rt.buckets.getD (rt.bucketIdForPeer p) [])
        newRec)).bucketIdForPeer p = rt.bucketIdForPeer p :=
    RoutingTable.setBucket_bucketIdForPeer rt _ _ p
  have hget : (rt.setBucket (rt.bucketIdForPeer p)
      (Bucket.pushFront (rt.buckets.getD (rt.bucketIdForPeer p) [])
        newRec)).buckets.getD (rt.bucketIdForPeer p) [] =
      newRec :: rt.buckets.getD (rt.bucketIdForPeer p) [] := by
    simp only [RoutingTable.setBucket]
    rw [List.getD_eq_getElem _ _ (by rw [List.length_set]; exact hbid)]
    exact List.getElem_set_self _
  simp only [RoutingTable.removePeerOp, hbid2, hget, removeId_cons_hit hid]
  refine ⟨by simp, ?_⟩
  simp only [RoutingTable.Size, RoutingTable.setBucket, List.set_set]
  have hss := sum_length_set rt.buckets (rt.bucketIdForPeer p)
    (rt.buckets.getD (rt.bucketIdForPeer p) []) hbid
  omega

/-- Counterexample to C5 as stated: when peer 1 is already present,
`TryAddPeer(1, true)` is a no-op firing nothing, and the following
`RemovePeer(1)` removes the existing record — the pair shrinks `Size` from 1
to 0 and fires one `onPeerRemoved` but zero `onPeerAdded`, so the round-trip
property fails for a present peer. -/
theorem C5_cex :
    (mkT [[rec4 1 1000]] 1 10).addPeer 1 true 2000 =
      some (mkT [[rec4 1 1000]] 1 10, false, none, []) ∧
    (mkT [[rec4 1 1000]] 1 10).Size = 1 ∧
    ((mkT [[rec4 1 1000]] 1 10).removePeerOp 1).2 = [Event.removed 1] ∧
    ((mkT [[rec4 1 1000]] 1 10).removePeerOp 1).1.Size = 0 ∧
    (([] : List Event) ++ [Event.removed 1]).countP
      (fun e => match e with | Event.added _ => true | Event.removed _ => false) = 0 := by
  exact ⟨rfl, rfl, rfl, rfl, rfl⟩

/-- C5 (corrected): the round-trip holds for an admission that did not evict:
if `TryAddPeer(p, true)` returns `(true, ok)` and `Size` actually grew by one
(which rules out the eviction path, where `Size` stays constant, and all
no-op paths), then the admission fired exactly one `onPeerAdded`, the
following `RemovePeer(p)` fires exactly one `onPeerRemoved`, and `Size`
returns to its prior value. -/
theorem C5_round_trip (rt : RoutingTable) (p : PeerId) (now : Int)
    (rt2 : RoutingTable) (evs : List Event)
    (h : rt.addPeer p true now = some (rt2, true, none, evs))
    (hsz : rt2.Size = rt.Size + 1) :
    evs = [Event.added p] ∧
    (rt2.removePeerOp p).2 = [Event.removed p] ∧
    (rt2.removePeerOp p).1.Size = rt.Size := by
  simp only [RoutingTable.addPeer, if_true] at h
  split at h
  · simp at h
  · split at h
    · simp at h
    · split at h
      case isTrue hroom =>
        have h1 := Option.some.inj h
        have hrt2 : rt2 = rt.setBucket (rt.bucketIdForPeer p)
            (Bucket.pushFront (rt.buckets.getD (rt.bucketIdForPeer p) [])
              ⟨p, now, rt.toKey p⟩) :=
          (congrArg Prod.fst h1).symm
        have hevs : evs = [Event.added p] :=
          (congrArg (fun x => x.2.2.2) h1).symm
        subst hrt2
        have hbid : rt.bucketIdForPeer p < rt.buckets.length := by
          by_contra hge
          rw [RoutingTable.Size, RoutingTable.setBucket,
            List.set_eq_of_length_le (by omega)] at hsz
          simp only [RoutingTable.Size] at hsz
          omega
        have hpr := RoutingTable.push_then_remove rt p
          ⟨p, now, rt.toKey p⟩ rfl hbid
        exact ⟨hevs, hpr.1, by rw [hpr.2]⟩
      case isFalse hfull =>
        split at h
        · split at h
          · cases h
          case h_2 rtu hnb =>
            have hszu : rtu.Size = rt.Size := RoutingTable.nextBucketF_size hnb
            have hneu : rtu.buckets ≠ [] := RoutingTable.nextBucketF_ne_nil hnb
            split at h
            case isTrue hroom2 =>
              have h1 := Option.some.inj h
              have hrt2 : rt2 = rtu.setBucket (rtu.bucketIdForPeer p)
                  (Bucket.pushFront (rtu.buckets.getD (rtu.bucketIdForPeer p) [])
                    ⟨p, now, rt.toKey p⟩) :=
                (congrArg Prod.fst h1).symm
              have hevs : evs = [Event.added p] :=
                (congrArg (fun x => x.2.2.2) h1).symm
              subst hrt2
              have hbid : rtu.bucketIdForPeer p < rtu.buckets.length :=
                RoutingTable.bucketIdForPeer_lt rtu p hneu
              have hpr := RoutingTable.push_then_remove rtu p
                ⟨p, now, rt.toKey p⟩ rfl hbid
              exact ⟨hevs, hpr.1, by rw [hpr.2, hszu]⟩
            case isFalse hfull2 =>
              rcases RoutingTable.sweep_cases rtu (rtu.bucketIdForPeer p)
                  (rtu.buckets.getD (rtu.bucketIdForPeer p) [])
                  ⟨p, now, rt.toKey p⟩ now
                  (rtu.buckets.getD (rtu.bucketIdForPeer p) [])
                  with hs | ⟨b2, ⟨pc, hmem, hrem⟩, hs⟩
              · rw [hs] at h; simp at h
              · rw [hs] at h
                have h1 := Option.some.inj h
                have hrt2 : rt2 = rtu.setBucket (rtu.bucketIdForPeer p)
                    (Bucket.pushFront b2 ⟨p, now, rt.toKey p⟩) :=
                  (congrArg Prod.fst h1).symm
                have hbid : rtu.bucketIdForPeer p < rtu.buckets.length := by
                  by_contra hge
                  rw [List.getD_eq_default _ _ (by omega)] at hmem
                  cases hmem
                have hlen := removeId_true_length hrem
                have hss := sum_length_set rtu.buckets (rtu.bucketIdForPeer p)
                  (Bucket.pushFront b2 ⟨p, now, rt.toKey p⟩) hbid
                rw [hrt2] at hsz
                simp only [RoutingTable.Size, RoutingTable.setBucket,
                  Bucket.pushFront, List.length_cons] at hsz hss
                simp only [RoutingTable.Size] at hszu
                omega
        · rcases RoutingTable.sweep_cases rt (rt.bucketIdForPeer p)
              (rt.buckets.getD (rt.bucketIdForPeer p) [])
              ⟨p, now, rt.toKey p⟩ now
              (rt.buckets.getD (rt.bucketIdForPeer p) [])
              with hs | ⟨b2, ⟨pc, hmem, hrem⟩, hs⟩
          · rw [hs] at h; simp at h
          · rw [hs] at h
            have h1 := Option.some.inj h
            have hrt2 : rt2 = rt.setBucket (rt.bucketIdForPeer p)
                (Bucket.pushFront b2 ⟨p, now, rt.toKey p⟩) :=
              (congrArg Prod.fst h1).symm
            have hbid : rt.bucketIdForPeer p < rt.buckets.length := by
              by_contra hge
              rw [List.getD_eq_default _ _ (by omega)] at hmem
              cases hmem
            have hlen := removeId_true_length hrem
            have hss := sum_length_set rt.buckets (rt.bucketIdForPeer p)
              (Bucket.pushFront b2 ⟨p, now, rt.toKey p⟩) hbid
            rw [hrt2] at hsz
            simp only [RoutingTable.Size, RoutingTable.setBucket,
              Bucket.pushFront, List.length_cons] at hsz hss
            omega

/-- Witness for the corrected C5: adding the fresh peer 3 to a bucket with
room grows the size by one, and removing it restores the size, with exactly
one event of each kind. -/
theorem C5_round_trip_witness :
    ([Event.added 3] : List Event) = [Event.added 3] ∧
    ((mkT [[⟨3, 50, tk4 3⟩, rec4 1 1000]] 2 10).removePeerOp 3).2 =
      [Event.removed 3] ∧
    ((mkT [[⟨3, 50, tk4 3⟩, rec4 1 1000]] 2 10).removePeerOp 3).1.Size =
      (mkT [[rec4 1 1000]] 2 10).Size :=
  C5_round_trip (mkT [[rec4 1 1000]] 2 10) 3 50
    (mkT [[⟨3, 50, tk4 3⟩, rec4 1 1000]] 2 10) [Event.added 3] rfl rfl

theorem gatherShort_acc {count : Nat} {bs : List Bucket} {acc : List peerInfo}
    {x : peerInfo} (hx : x ∈ acc) : x ∈ RoutingTable.gatherShort count bs acc := by
  induction bs generalizing acc with
  | nil => exact hx
  | cons b rest ih =>
    simp only [RoutingTable.gatherShort]
    split
    · exact ih (by simp [hx])
    · exact hx

theorem gatherShort_dest {count : Nat} {bs : List Bucket} {acc : List peerInfo}
    {x : peerInfo} (hx : x ∈ RoutingTable.gatherShort count bs acc) :
    x ∈ acc ∨ ∃ b ∈ bs, x ∈ b := by
  induction bs generalizing acc with
  | nil => exact Or.inl hx
  | cons b rest ih =>
    simp only [RoutingTable.gatherShort] at hx
    split at hx
    · rcases ih hx with h1 | ⟨b2, hb2, hxb2⟩
      · rcases List.mem_append.mp h1 with h2 | h2
        · exact Or.inl h2
        · exact Or.inr ⟨b, by simp, h2⟩
      · exact Or.inr ⟨b2, by simp [hb2], hxb2⟩
    · exact Or.inl hx

theorem seed_subset_candidates {rt : RoutingTable} {t : Key} {count : Nat}
    {x : peerInfo} (hx : x ∈ rt.buckets.getD (rt.seedIdx t) []) :
    x ∈ rt.candidates t count := by
  unfold RoutingTable.candidates
  exact gatherShort_acc (gatherShort_acc hx)

theorem candidates_dest {rt : RoutingTable} {t : Key} {count : Nat}
    {x : peerInfo} (hx : x ∈ rt.candidates t count) :
    ∃ b ∈ rt.buckets, x ∈ b := by
  unfold RoutingTable.candidates at hx
  rcases gatherShort_dest hx with h1 | ⟨b, hb, hxb⟩
  · rcases gatherShort_dest h1 with h2 | ⟨b, hb, hxb⟩
    · by_cases hlt : rt.seedIdx t < rt.buckets.length
      · rw [List.getD_eq_getElem _ _ hlt] at h2
        exact ⟨_, List.getElem_mem _, h2⟩
      · rw [List.getD_eq_default _ _ (by omega)] at h2
        cases h2
    · exact ⟨b, List.mem_of_mem_drop hb, hxb⟩
  · rw [List.mem_reverse] at hb
    exact ⟨b, List.mem_of_mem_take hb, hxb⟩

theorem ListPeers_dest {rt : RoutingTable} {r : PeerId} (hr : r ∈ rt.ListPeers) :
    ∃ i, i < rt.buckets.length ∧ ∃ x ∈ rt.buckets.getD i [], x.Id = r := by
  unfold RoutingTable.ListPeers at hr
  rw [List.mem_flatten] at hr
  obtain ⟨l, hl, hrl⟩ := hr
  rw [List.mem_map] at hl
  obtain ⟨b, hb, rfl⟩ := hl
  obtain ⟨i, hi, rfl⟩ := List.mem_iff_getElem.mp hb
  unfold Bucket.ids at hrl
  rw [List.mem_map] at hrl
  obtain ⟨x, hx, rfl⟩ := hrl
  exact ⟨i, by simpa using hi, x, by
    rw [List.getD_eq_getElem _ _ (by simpa using hi)]; exact hx, rfl⟩

theorem seedIdx_eq_min (rt : RoutingTable) (t : Key) (hne : rt.buckets ≠ []) :
    rt.seedIdx t = min (CommonPrefixLen t rt.localKey) (rt.buckets.length - 1) := by
  have hm : 0 < rt.buckets.length := List.length_pos.mpr hne
  unfold RoutingTable.seedIdx
  split <;> omega

theorem keysGood_getD {rt : RoutingTable} (hkg : rt.KeysGood) {i : Nat}
    (hi : i < rt.buckets.length) {x : peerInfo} (hx : x ∈ rt.buckets.getD i []) :
    x.dhtId = rt.toKey x.Id ∧ x.dhtId.length = rt.localKey.length := by
  rw [List.getD_eq_getElem _ _ hi] at hx
  exact hkg _ (List.getElem_mem _) x hx

theorem keysGood_candidates {rt : RoutingTable} (hkg : rt.KeysGood) {t : Key}
    {count : Nat} {x : peerInfo} (hx : x ∈ rt.candidates t count) :
    x.dhtId = rt.toKey x.Id ∧ x.dhtId.length = rt.localKey.length := by
  obtain ⟨b, hb, hxb⟩ := candidates_dest hx
  exact hkg b hb x hxb

theorem distLe_trans {t : Key} {a b c : peerInfo}
    (h1 : keyLe (xorKey a.dhtId t) (xorKey b.dhtId t) = true)
    (h2 : keyLe (xorKey b.dhtId t) (xorKey c.dhtId t) = true) :
    keyLe (xorKey a.dhtId t) (xorKey c.dhtId t) = true :=
  keyLe_trans h1 h2

theorem sorted_candidates (rt : RoutingTable) (t : Key) (count : Nat) :
    List.Pairwise (RoutingTable.distRel t)
      (List.insertionSort (RoutingTable.distRel t) (rt.candidates t count)) := by
  haveI : IsTotal peerInfo (RoutingTable.distRel t) := ⟨fun a b => by
    have := keyLe_total (xorKey a.dhtId t) (xorKey b.dhtId t)
    rcases Bool.or_eq_true_iff.mp this with h | h
    · exact Or.inl h
    · exact Or.inr h⟩
  haveI : IsTrans peerInfo (RoutingTable.distRel t) := ⟨fun a b c h1 h2 => keyLe_trans h1 h2⟩
  exact List.sorted_insertionSort _ _

theorem head_min_of_sorted {t : Key} {hd : peerInfo} {tl : List peerInfo}
    (hs : List.Pairwise (RoutingTable.distRel t) (hd :: tl))
    {x : peerInfo} (hx : x ∈ hd :: tl) :
    keyLe (xorKey hd.dhtId t) (xorKey x.dhtId t) = true := by
  rcases List.mem_cons.mp hx with rfl | hx2
  · exact keyLe_refl _
  · exact (List.pairwise_cons.mp hs).1 x hx2

theorem seed_closest {rt : RoutingTable} (ha : rt.Assigned) (hkg : rt.KeysGood)
    (hne : rt.buckets ≠ []) {t : Key} (ht : t.length = rt.localKey.length)
    {q x : peerInfo} {i : Nat} (hi : i < rt.buckets.length)
    (hq : q ∈ rt.buckets.getD (rt.seedIdx t) [])
    (hx : x ∈ rt.buckets.getD i []) (hic : i ≠ rt.seedIdx t) :
    keyLe (xorKey q.dhtId t) (xorKey x.dhtId t) = true := by
  have hm : 0 < rt.buckets.length := List.length_pos.mpr hne
  have hseedlt : rt.seedIdx t < rt.buckets.length := by
    unfold RoutingTable.seedIdx
    split <;> omega
  have hqa := ha (rt.seedIdx t) hseedlt q hq
  have hxa := ha i hi x hx
  have hqk := keysGood_getD hkg hseedlt hq
  have hxk := keysGood_getD hkg hi hx
  have hsmin := seedIdx_eq_min rt t hne
  have hcx_le : CommonPrefixLen x.dhtId rt.localKey ≤ rt.localKey.length :=
    cpl_le_right _ _
  have hct_le : CommonPrefixLen t rt.localKey ≤ rt.localKey.length :=
    cpl_le_right _ _
  apply keyLe_of_keyLt
  apply dist_lt (by omega) (by omega)
  rcases Nat.lt_or_ge i (rt.seedIdx t) with hlt | hge
  · -- bucket strictly to the left: x shares exactly i < seedIdx bits with local
    have hcx : CommonPrefixLen x.dhtId rt.localKey = i := by omega
    have hct : rt.seedIdx t ≤ CommonPrefixLen t rt.localKey := by omega
    have hxt : CommonPrefixLen x.dhtId t = i := by
      have hne2 : CommonPrefixLen x.dhtId rt.localKey ≠
          CommonPrefixLen rt.localKey t := by
        rw [cpl_comm rt.localKey t]
        omega
      rw [cpl_eq_min_of_ne _ _ _ hne2, hcx, cpl_comm rt.localKey t]
      omega
    have hqt : rt.seedIdx t ≤ CommonPrefixLen q.dhtId t := by
      have htri := cpl_triangle q.dhtId rt.localKey t
      rw [cpl_comm rt.localKey t] at htri
      omega
    omega
  · -- bucket strictly to the right: q and t share exactly seedIdx bits with
    -- local and agree at the next bit, x shares more with local
    have hgt : rt.seedIdx t < i := by omega
    have hseed_lt_last : rt.seedIdx t < rt.buckets.length - 1 := by omega
    have hct0 : CommonPrefixLen t rt.localKey = rt.seedIdx t := by omega
    have hcq : CommonPrefixLen q.dhtId rt.localKey = rt.seedIdx t := by omega
    have hcx_gt : rt.seedIdx t < CommonPrefixLen x.dhtId rt.localKey := by omega
    have hxt : CommonPrefixLen x.dhtId t = rt.seedIdx t := by
      have hne2 : CommonPrefixLen x.dhtId rt.localKey ≠
          CommonPrefixLen rt.localKey t := by
        rw [cpl_comm rt.localKey t]
        omega
      rw [cpl_eq_min_of_ne _ _ _ hne2, cpl_comm rt.localKey t]
      omega
    have hctW : rt.seedIdx t < rt.localKey.length := by omega
    have hqt : rt.seedIdx t + 1 ≤ CommonPrefixLen q.dhtId t := by
      apply cpl_succ_of_both hcq hct0
      · omega
      · omega
      · exact hctW
    omega

/-- Counterexample to C4 as stated: in the reachable, well-formed table with
buckets `[[], [peer 1], [peer 2]]` (local key `0000`, k = 1), the lookup
`NearestPeers(1000, 1)` seeds from the empty bucket 0, takes peer 1 from the
next bucket and stops — but peer 2 is strictly closer to the target by XOR
distance, so the first returned id does not attain the minimum over
`ListPeers()`. -/
theorem C4_cex :
    (mkT [[], [rec4 1 1000], [rec4 2 1000]] 1 10).NearestPeers (tk4 3) 1 = [1] ∧
    2 ∈ (mkT [[], [rec4 1 1000], [rec4 2 1000]] 1 10).ListPeers ∧
    keyLt (xorKey ((mkT [[], [rec4 1 1000], [rec4 2 1000]] 1 10).toKey 2) (tk4 3))
      (xorKey ((mkT [[], [rec4 1 1000], [rec4 2 1000]] 1 10).toKey 1) (tk4 3)) =
      true := by
  exact ⟨rfl, by decide, by decide⟩

/-- C4 (corrected): nearest-peers correctness.  For a well-formed table
(cached keys, assignment invariant, uniform key width) and a full-width
target: the XOR distances of the returned ids are sorted ascending for
EVERY requested count (seed bucket empty or not); and whenever at least one
peer is requested and the seed bucket `B[min(CPL(t, local), m-1)]` is
non-empty, the list is non-empty and its first id attains the minimum XOR
distance to the target over all of `ListPeers()`. -/
theorem C4_nearest_sorted_min (rt : RoutingTable) (t : Key) (n : Nat)
    (hkg : rt.KeysGood) (ha : rt.Assigned) (hne : rt.buckets ≠ [])
    (ht : t.length = rt.localKey.length) :
    List.Pairwise
      (fun a b => keyLe (xorKey (rt.toKey a) t) (xorKey (rt.toKey b) t) = true)
      (rt.NearestPeers t n) ∧
    (1 ≤ n → rt.buckets.getD (rt.seedIdx t) [] ≠ [] →
      ∃ hd rest, rt.NearestPeers t n = hd :: rest ∧
        ∀ r ∈ rt.ListPeers,
          keyLe (xorKey (rt.toKey hd) t) (xorKey (rt.toKey r) t) = true) := by
  have hperm := List.perm_insertionSort (RoutingTable.distRel t) (rt.candidates t n)
  have hsorted := sorted_candidates rt t n
  constructor
  · unfold RoutingTable.NearestPeers
    rw [List.pairwise_map]
    have hp1 := List.Pairwise.sublist (List.take_sublist n _) hsorted
    refine List.Pairwise.imp_of_mem ?_ hp1
    intro a b hat hbt hab
    have hak := (keysGood_candidates hkg
      (hperm.mem_iff.mp (List.mem_of_mem_take hat))).1
    have hbk := (keysGood_candidates hkg
      (hperm.mem_iff.mp (List.mem_of_mem_take hbt))).1
    simp only [RoutingTable.distRel] at hab
    rw [hak, hbk] at hab
    exact hab
  · intro hn hseed
    obtain ⟨m, rfl⟩ : ∃ m, n = m + 1 := ⟨n - 1, by omega⟩
    obtain ⟨q0, hq0⟩ := List.exists_mem_of_ne_nil _ hseed
    have hq0c : q0 ∈ rt.candidates t (m + 1) := seed_subset_candidates hq0
    have hq0s := hperm.mem_iff.mpr hq0c
    rcases hsrt : List.insertionSort (RoutingTable.distRel t) (rt.candidates t (m + 1))
      with _ | ⟨hd, tl⟩
    · rw [hsrt] at hq0s; cases hq0s
    · rw [hsrt] at hq0s hsorted
      have hdc : hd ∈ rt.candidates t (m + 1) := by
        rw [hsrt] at hperm
        exact hperm.mem_iff.mp (by simp)
      have hdk := keysGood_candidates hkg hdc
      refine ⟨hd.Id, (List.take m tl).map peerInfo.Id, ?_, ?_⟩
      · unfold RoutingTable.NearestPeers
        rw [hsrt, List.take_succ_cons, List.map_cons]
      · intro r hr
        obtain ⟨i, hi, x, hx, rfl⟩ := ListPeers_dest hr
        have hxk := keysGood_getD hkg hi hx
        by_cases hieq : i = rt.seedIdx t
        · subst hieq
          have hxs := hperm.mem_iff.mpr (seed_subset_candidates hx)
          rw [hsrt] at hxs
          have hmin := head_min_of_sorted hsorted hxs
          rw [hdk.1, hxk.1] at hmin
          exact hmin
        · have hq0min := head_min_of_sorted hsorted hq0s
          have hclose := seed_closest ha hkg hne ht hi hq0 hx hieq
          have hfin := keyLe_trans hq0min hclose
          rw [hdk.1, hxk.1] at hfin
          exact hfin

/-- Witness for the corrected C4 at the three-bucket table with target
`0111` (peer 1's key): the output of a two-peer request is distance-sorted,
the seed bucket is non-empty, and peer 1 is returned first, attaining the
minimum distance; both inner conditions are discharged concretely. -/
theorem C4_nearest_sorted_min_witness :
    List.Pairwise
      (fun a b => keyLe
        (xorKey ((mkT [[], [rec4 1 1000], [rec4 2 1000]] 1 10).toKey a) (tk4 1))
        (xorKey ((mkT [[], [rec4 1 1000], [rec4 2 1000]] 1 10).toKey b) (tk4 1)) = true)
      ((mkT [[], [rec4 1 1000], [rec4 2 1000]] 1 10).NearestPeers (tk4 1) 2) ∧
    ∃ hd rest,
      (mkT [[], [rec4 1 1000], [rec4 2 1000]] 1 10).NearestPeers (tk4 1) 2 =
        hd :: rest ∧
      ∀ r ∈ (mkT [[], [rec4 1 1000], [rec4 2 1000]] 1 10).ListPeers,
        keyLe (xorKey ((mkT [[], [rec4 1 1000], [rec4 2 1000]] 1 10).toKey hd) (tk4 1))
          (xorKey ((mkT [[], [rec4 1 1000], [rec4 2 1000]] 1 10).toKey r) (tk4 1)) =
          true :=
  ⟨(C4_nearest_sorted_min (mkT [[], [rec4 1 1000], [rec4 2 1000]] 1 10) (tk4 1) 2
      (by unfold RoutingTable.KeysGood; decide)
      (by unfold RoutingTable.Assigned; decide)
      (by decide) (by decide)).1,
    (C4_nearest_sorted_min (mkT [[], [rec4 1 1000], [rec4 2 1000]] 1 10) (tk4 1) 2
      (by unfold RoutingTable.KeysGood; decide)
      (by unfold RoutingTable.Assigned; decide)
      (by decide) (by decide)).2 (by decide) (by decide)⟩

theorem tkI_injective : Function.Injective tkI := by
  intro a b h
  have hlen := congrArg List.length h
  simp [tkI] at hlen
  exact hlen

/-- C10 (confirmed): `Find` is exact membership.  For a well-formed table
(cached keys, assignment invariant, uniform key width) with an injective
peer-id hash, `Find(p)` returns `p` exactly when `p` is present in some
bucket — its key is at XOR distance zero from itself, so it is the first
result of `NearestPeers(toKey(p), 1)` — and returns the empty id (`none`)
otherwise. -/
theorem C10_find_membership (rt : RoutingTable) (p : PeerId)
    (hkg : rt.KeysGood) (ha : rt.Assigned) (hne : rt.buckets ≠ [])
    (hwt : (rt.toKey p).length = rt.localKey.length)
    (hinj : Function.Injective rt.toKey) :
    (rt.Find p = some p ↔ p ∈ rt.ListPeers) ∧
    (p ∉ rt.ListPeers → rt.Find p = none) := by
  have hshape : rt.Find p = none ∨ rt.Find p = some p := by
    unfold RoutingTable.Find
    split
    · exact Or.inl rfl
    case h_2 x rest heq =>
      by_cases hx : x = p
      · subst hx
        right
        rw [if_pos rfl]
      · left
        rw [if_neg hx]
  have hforward : rt.Find p = some p → p ∈ rt.ListPeers := by
    intro hf
    unfold RoutingTable.Find at hf
    split at hf
    · cases hf
    case h_2 x rest heq =>
      split at hf
      case isTrue hxp =>
        subst hxp
        have hxmem : x ∈ x :: rest := by simp
        rw [← heq] at hxmem
        unfold RoutingTable.NearestPeers at hxmem
        rw [List.mem_map] at hxmem
        obtain ⟨y, hy, rfl⟩ := hxmem
        have hyc := (List.perm_insertionSort _ _).mem_iff.mp
          (List.mem_of_mem_take hy)
        obtain ⟨b, hb, hyb⟩ := candidates_dest hyc
        unfold RoutingTable.ListPeers
        rw [List.mem_flatten]
        exact ⟨Bucket.ids b, List.mem_map_of_mem _ hb,
          List.mem_map_of_mem _ hyb⟩
      · cases hf
  have hback : p ∈ rt.ListPeers → rt.Find p = some p := by
    intro hp
    obtain ⟨i, hi, x, hx, hxid⟩ := ListPeers_dest hp
    have hxk := keysGood_getD hkg hi hx
    have hxkey : x.dhtId = rt.toKey p := by rw [hxk.1, hxid]
    have hxa := ha i hi x hx
    have hsm := seedIdx_eq_min rt (rt.toKey p) hne
    have hieq : i = rt.seedIdx (rt.toKey p) := by
      rw [hsm, ← hxkey]
      exact hxa
    rw [hieq] at hx
    have hxc : x ∈ rt.candidates (rt.toKey p) 1 := seed_subset_candidates hx
    have hperm := List.perm_insertionSort (RoutingTable.distRel (rt.toKey p))
      (rt.candidates (rt.toKey p) 1)
    have hsorted := sorted_candidates rt (rt.toKey p) 1
    have hxs := hperm.mem_iff.mpr hxc
    rcases hsrt : List.insertionSort (RoutingTable.distRel (rt.toKey p))
        (rt.candidates (rt.toKey p) 1) with _ | ⟨hd, tl⟩
    · rw [hsrt] at hxs; cases hxs
    · rw [hsrt] at hxs hsorted
      have hmin := head_min_of_sorted hsorted hxs
      have hdc : hd ∈ rt.candidates (rt.toKey p) 1 := by
        rw [hsrt] at hperm
        exact hperm.mem_iff.mp (by simp)
      have hdk := keysGood_candidates hkg hdc
      have hlen_d : (xorKey hd.dhtId (rt.toKey p)).length = (rt.toKey p).length := by
        unfold xorKey
        rw [List.length_zipWith]
        omega
      have hxz : xorKey x.dhtId (rt.toKey p) =
          List.replicate (rt.toKey p).length false := by
        rw [hxkey]
        exact xorKey_self _
      rw [hxz] at hmin
      have hzero := eq_zero_of_keyLe_zero hlen_d hmin
      have hdeq : hd.dhtId = rt.toKey p := by
        apply eq_of_xorKey_eq_zero (by omega)
        rw [show hd.dhtId.length = (rt.toKey p).length from by omega]
        exact hzero
      have hdid : hd.Id = p := hinj (hdk.1.symm.trans hdeq)
      unfold RoutingTable.Find RoutingTable.NearestPeers
      rw [hsrt, List.take_succ_cons, List.take_zero, List.map_cons, List.map_nil]
      rw [hdid]
      dsimp only
      rw [if_pos rfl]
  refine ⟨⟨hforward, hback⟩, ?_⟩
  intro hnp
  rcases hshape with h1 | h1
  · exact h1
  · exact absurd (hforward h1) hnp

/-- Witness for C10 at the one-record table under the injective hash. -/
theorem C10_find_membership_witness :
    (mkTI.Find 3 = some 3 ↔ 3 ∈ mkTI.ListPeers) ∧
    (3 ∉ mkTI.ListPeers → mkTI.Find 3 = none) :=
  C10_find_membership mkTI 3
    (by unfold RoutingTable.KeysGood; decide)
    (by unfold RoutingTable.Assigned; decide)
    (by decide) rfl tkI_injective

end KBucket
